import Mathlib

/-!
Verification of the Semantic Vault Organization Engine
(`src/organizer/folder_tree.py`, `clustering.py`, `discrepancy.py`,
`suggestions.py`, `vault_organizer.py`) against its specification.

The Python sources are shallowly embedded:
* `pathlib.PurePosixPath` is modelled by `PPath` (a root marker plus the
  list of path segments after dropping empty and `"."` segments);
* the mutable `FolderNode`/`FileNode` object tree is modelled by the
  inductive type `FolderNode`, with construction-time mutation expressed
  as pure tree-rewriting functions;
* `numpy` float arrays are modelled as lists of real numbers, so all
  arithmetic is exact; `np.linalg.norm` is the real square root of the
  sum of squares;
* Python's stable `list.sort` is modelled by stable insertion sort
  (`List.insertionSort`), which is extensionally the same function;
* `sklearn.cluster.AgglomerativeClustering` (an external collaborator)
  enters `cluster_files` as an opaque function parameter.
-/

/-! ### PurePosixPath model -/

/-- Split a character list at every slash, keeping empty segments
(the segment list of `"a//b"` is `["a", "", "b"]`). Never returns `[]`. -/
def segsAux : List Char → List (List Char)
  | [] => [[]]
  | c :: rest =>
    let r := segsAux rest
    if c = '/' then [] :: r
    else
      match r with
      | [] => [[c]]
      | s :: ss => (c :: s) :: ss

/-- All slash-separated segments of a string, including empty ones. -/
def rawSegs (s : String) : List String :=
  (segsAux s.toList).map (fun cs => cs.asString)

/-- The `parts` of `PurePosixPath(s)`: slash-separated segments with empty
and `"."` segments dropped (`".."` is kept, as in `pathlib`). -/
def parseParts (s : String) : List String :=
  (rawSegs s).filter (fun t => !(t == "") && !(t == "."))

/-- The root marker of `PurePosixPath(s)`: `"//"` for exactly two leading
slashes, `"/"` for one or at least three, `""` for a relative path. -/
def rootOf (s : String) : String :=
  let cs := s.toList
  if cs.take 1 = ['/'] then
    if cs.take 2 = ['/', '/'] then
      if cs.take 3 = ['/', '/', '/'] then "/" else "//"
    else "/"
  else ""

/-- A parsed `PurePosixPath`: root marker and normalized segment list. -/
structure PPath where
  root : String
  parts : List String
deriving DecidableEq

/-- `PurePosixPath(s)` as a `PPath`. -/
def parsePath (s : String) : PPath := ⟨rootOf s, parseParts s⟩

/-- `PurePosixPath.parent`: drop the last segment; a path with no segments
is its own parent. -/
def PPath.parent (p : PPath) : PPath :=
  if p.parts = [] then p else ⟨p.root, p.parts.dropLast⟩

/-- Join segments with single slashes. -/
def joinSegs : List String → String
  | [] => ""
  | [t] => t
  | t :: rest => t ++ "/" ++ joinSegs rest

/-- `str(PurePosixPath)`: `"."` for an empty relative path, otherwise the
root marker followed by the slash-joined segments. -/
def PPath.str (p : PPath) : String :=
  if p.root = "" ∧ p.parts = [] then "." else p.root ++ joinSegs p.parts

/-- The while-loop of `get_ancestor_paths` (`suggestions.py`), phrased
structurally on the reversed segment list: emit `str(p)` while it is
neither empty nor `"."`, stepping to the parent each time. The Python
loop never terminates on an absolute path (the root `"/"` is its own
parent); the model emits such a root once and stops, so the model and the
source agree on every input on which the source terminates. -/
def ancStrs (rt : String) : List String → List String
  | [] =>
    let s := PPath.str ⟨rt, []⟩
    if s = "" ∨ s = "." then [] else [s]
  | r :: rs =>
    let s := PPath.str ⟨rt, (r :: rs).reverse⟩
    if s = "" ∨ s = "." then [] else s :: ancStrs rt rs

/-- `get_ancestor_paths` from `suggestions.py`: every ancestor folder path
of `path`, starting from its parent (the Python function returns a set;
the model returns the list of emitted elements). -/
def get_ancestor_paths (path : String) : List String :=
  let p := (parsePath path).parent
  ancStrs p.root p.parts.reverse

/-! ### Folder tree model (`folder_tree.py`) -/

/-- `FileNode` from `folder_tree.py`. The non-owning `parent` back
reference is omitted: no analysis code reads it. The dataclass declares
the embedding as always present, but `compute_folder_embeddings` and the
analysis passes guard against `None`, so it is modelled as optional. -/
structure FileNode (α : Type) where
  path : String
  embedding : Option α

/-- `FolderNode` from `folder_tree.py`, as an inductive tree (the Python
object graph is a tree plus non-owning parent pointers, which no analysis
code reads). The payload type is a parameter: `build_tree` never inspects
the vectors it stores. -/
inductive FolderNode (α : Type) where
  | mk (path : String) (files : List (FileNode α))
       (subfolders : List (FolderNode α)) (embedding : Option α)

def FolderNode.path {α} : FolderNode α → String
  | .mk p _ _ _ => p

def FolderNode.files {α} : FolderNode α → List (FileNode α)
  | .mk _ fs _ _ => fs

def FolderNode.subfolders {α} : FolderNode α → List (FolderNode α)
  | .mk _ _ sf _ => sf

def FolderNode.embedding {α} : FolderNode α → Option α
  | .mk _ _ _ e => e

mutual

/-- All folder paths in the tree, in preorder. This is the key set of the
`folder_cache` dict of `build_tree` once construction has reached the
corresponding state. -/
def allFolderPaths {α} : FolderNode α → List String
  | .mk p _ subs _ => p :: allFolderPathsL subs

def allFolderPathsL {α} : List (FolderNode α) → List String
  | [] => []
  | s :: ss => allFolderPaths s ++ allFolderPathsL ss

end

mutual

/-- All file paths in the tree, in preorder. -/
def allFilePaths {α} : FolderNode α → List String
  | .mk _ fs subs _ => fs.map (fun f => f.path) ++ allFilePathsL subs

def allFilePathsL {α} : List (FolderNode α) → List String
  | [] => []
  | s :: ss => allFilePaths s ++ allFilePathsL ss

end

/-- Whether a folder with the given path exists anywhere in the tree
(the `folder_path in folder_cache` test of `build_tree`). -/
def containsFolder {α} (t : FolderNode α) (x : String) : Bool :=
  (allFolderPaths t).contains x

/-- Whether a file with the given path exists anywhere in the tree. -/
def containsFile {α} (t : FolderNode α) (x : String) : Bool :=
  (allFilePaths t).contains x

mutual

/-- `parent_folder.subfolders.append(new_folder)`: append `n` to the
subfolder list of the node whose path is `pp`. -/
def addFolderUnder {α} (pp : String) (n : FolderNode α) :
    FolderNode α → FolderNode α
  | .mk p fs subs e =>
    if p = pp then .mk p fs (subs ++ [n]) e
    else .mk p fs (addFolderUnderL pp n subs) e

def addFolderUnderL {α} (pp : String) (n : FolderNode α) :
    List (FolderNode α) → List (FolderNode α)
  | [] => []
  | s :: ss => addFolderUnder pp n s :: addFolderUnderL pp n ss

end

mutual

/-- `parent_folder.files.append(file_node)`: append `f` to the file list
of the node whose path is `pp`. -/
def addFileUnder {α} (pp : String) (f : FileNode α) :
    FolderNode α → FolderNode α
  | .mk p fs subs e =>
    if p = pp then .mk p (fs ++ [f]) subs e
    else .mk p fs (addFileUnderL pp f subs) e

def addFileUnderL {α} (pp : String) (f : FileNode α) :
    List (FolderNode α) → List (FolderNode α)
  | [] => []
  | s :: ss => addFileUnder pp f s :: addFileUnderL pp f ss

end

/-- The recursive core of `get_or_create_folder`, phrased structurally on
the reversed segment list of the folder being created. An invocation
with reversed segments `r :: rs` handles the folder
`str(PPath ⟨rt, (r :: rs).reverse⟩)`: if it is already in the tree stop
(the cache hit), otherwise ensure its parent (reversed segments `rs`)
exists and append a fresh node under the parent. An invocation with `[]`
handles the segmentless folder (`"."`, `"/"` or `"//"`), whose pathlib
parent is itself, so the Python code attaches it under the root `""`. -/
def gocAux {α} (rt : String) : List String → FolderNode α → FolderNode α
  | [], t =>
    let fp := PPath.str ⟨rt, []⟩
    if containsFolder t fp then t
    else addFolderUnder "" (.mk fp [] [] none) t
  | r :: rs, t =>
    let fp := PPath.str ⟨rt, (r :: rs).reverse⟩
    if containsFolder t fp then t
    else
      let pt := gocAux rt rs t
      addFolderUnder (PPath.str ⟨rt, rs.reverse⟩) (.mk fp [] [] none) pt

/-- `get_or_create_folder` from `build_tree`: return the tree unchanged if
`fp` is already present, otherwise create it together with all missing
ancestors. The node is created with the raw string `fp` as its path,
exactly as in the source; the recursion on the parent proceeds on the
normalized segments, because the Python recursion passes
`str(path_obj.parent)`. -/
def getOrCreateFolder {α} (t : FolderNode α) (fp : String) : FolderNode α :=
  if containsFolder t fp then t
  else
    match (parsePath fp).parts.reverse with
    | [] => addFolderUnder "" (.mk fp [] [] none) t
    | _ :: rs =>
      addFolderUnder (PPath.str ⟨(parsePath fp).root, rs.reverse⟩)
        (.mk fp [] [] none) (gocAux (parsePath fp).root rs t)

/-- One iteration of the file loop of `build_tree`: compute the parent
folder path (`""` when `str(parent)` is `"."`), ensure it exists, and
append the file node under it. -/
def buildStep {α} (t : FolderNode α) (pv : String × α) : FolderNode α :=
  let pp := PPath.str (parsePath pv.1).parent
  let parentPath := if pp ≠ "." then pp else ""
  addFileUnder parentPath ⟨pv.1, some pv.2⟩ (getOrCreateFolder t parentPath)

/-- `build_tree` from `folder_tree.py`. The input dict is modelled as the
list of its entries in insertion order. -/
def build_tree {α} (m : List (String × α)) : FolderNode α :=
  m.foldl buildStep (.mk "" [] [] none)

mutual

/-- `get_all_folders` from `folder_tree.py`: preorder list of folder
nodes, skipping nodes with the empty path unless `include_root` is set.
(The `include_root` flag comes first so the list recursion can partially
apply the function.) -/
def get_all_folders {α} (include_root : Bool) :
    FolderNode α → List (FolderNode α)
  | .mk p fs subs e =>
    (if p ≠ "" ∨ include_root = true then [FolderNode.mk p fs subs e] else [])
      ++ get_all_foldersL include_root subs

def get_all_foldersL {α} (include_root : Bool) :
    List (FolderNode α) → List (FolderNode α)
  | [] => []
  | s :: ss => get_all_folders include_root s ++ get_all_foldersL include_root ss

end

mutual

/-- All folder nodes of the tree in preorder, root included. -/
def allNodes {α} : FolderNode α → List (FolderNode α)
  | .mk p fs subs e => FolderNode.mk p fs subs e :: allNodesL subs

def allNodesL {α} : List (FolderNode α) → List (FolderNode α)
  | [] => []
  | s :: ss => allNodes s ++ allNodesL ss

end

/-- Whether no folder node of the tree carries an embedding, the state in
which `build_tree` delivers the tree to `compute_folder_embeddings`. -/
def folderEmbFree {α} (t : FolderNode α) : Bool :=
  (allNodes t).all (fun u => u.embedding.isNone)

/-! ### Numeric model (numpy arrays as lists of reals) -/

/-- An embedding vector (`np.ndarray` of floats, modelled exactly). -/
abbrev Vec := List ℝ

noncomputable section

/-- `np.dot` for equal-length vectors. -/
def dot (a b : Vec) : ℝ := (List.zipWith (· * ·) a b).sum

/-- `np.linalg.norm`: square root of the sum of squares. -/
def l2norm (v : Vec) : ℝ := Real.sqrt ((v.map fun x => x * x).sum)

/-- `cosine_similarity` from `discrepancy.py` (the copy in `clustering.py`
is textually identical): `0.0` when either norm is zero, otherwise the
normalized dot product. -/
def cosine_similarity (a b : Vec) : ℝ :=
  if l2norm a = 0 ∨ l2norm b = 0 then 0
  else dot a b / (l2norm a * l2norm b)

/-- `np.mean` of a list of scalars. -/
def npMean (l : List ℝ) : ℝ := l.sum / l.length

/-- `np.std` (population standard deviation, `ddof = 0`). -/
def npStd (l : List ℝ) : ℝ :=
  Real.sqrt ((l.map fun x => (x - npMean l) * (x - npMean l)).sum / l.length)

/-- Elementwise sum of a list of equal-length vectors. -/
def vecSum : List Vec → Vec
  | [] => []
  | [v] => v
  | v :: rest => List.zipWith (· + ·) v (vecSum rest)

/-- `np.mean(vs, axis=0)`: elementwise mean of equal-length vectors. -/
def vecMean (l : List Vec) : Vec :=
  (vecSum l).map fun x => x / (l.length : ℝ)

/-! ### Bottom-up aggregation (`compute_folder_embeddings`) -/

mutual

/-- `compute_folder_embeddings` from `folder_tree.py`: recurse into the
subfolders first, collect the present direct-file embeddings followed by
the present (just computed) subfolder embeddings, and if that list is
nonempty store its mean, normalized when the mean's norm is positive.
The Python function mutates the tree; the model returns the updated
tree. -/
def compute_folder_embeddings : FolderNode Vec → FolderNode Vec
  | .mk p fs subs e =>
    let subs2 := computeEmbL subs
    let allEmb := fs.filterMap (fun f => f.embedding)
      ++ subs2.filterMap (fun s => s.embedding)
    if allEmb.isEmpty then .mk p fs subs2 e
    else
      let m := vecMean allEmb
      let nrm := l2norm m
      .mk p fs subs2 (some (if 0 < nrm then m.map (fun x => x / nrm) else m))

def computeEmbL : List (FolderNode Vec) → List (FolderNode Vec)
  | [] => []
  | s :: ss => compute_folder_embeddings s :: computeEmbL ss

end

/-- The list `all_embeddings` that `compute_folder_embeddings` collects at
a node: present direct-file embeddings followed by present direct
subfolder embeddings. -/
def childEmbList (u : FolderNode Vec) : List Vec :=
  u.files.filterMap (fun f => f.embedding)
    ++ u.subfolders.filterMap (fun s => s.embedding)

/-! ### Discrepancy analysis (`discrepancy.py`) -/

/-- `compute_folder_coherence`: mean cosine similarity of the direct files
to the folder embedding, `-1` when the folder has no embedding, no files,
or no file embeddings. -/
def compute_folder_coherence (folder : FolderNode Vec) : ℝ :=
  match folder.embedding with
  | none => -1
  | some femb =>
    if folder.files.isEmpty then -1
    else
      let sims := folder.files.filterMap fun f =>
        f.embedding.map fun e => cosine_similarity e femb
      if sims.isEmpty then -1 else npMean sims

/-- `compute_folder_variance`: population standard deviation of the same
similarities, `-1` when not computable, `0` for fewer than two values. -/
def compute_folder_variance (folder : FolderNode Vec) : ℝ :=
  match folder.embedding with
  | none => -1
  | some femb =>
    if folder.files.isEmpty then -1
    else
      let sims := folder.files.filterMap fun f =>
        f.embedding.map fun e => cosine_similarity e femb
      if sims.length < 2 then 0 else npStd sims

/-- `FolderAnalysis` from `discrepancy.py`. -/
structure FolderAnalysis where
  folder : FolderNode Vec
  coherence : ℝ
  variance : ℝ
  file_count : ℕ
  outlier_count : ℕ

/-- `FileOutlier` from `discrepancy.py`. -/
structure FileOutlier where
  file : FileNode Vec
  folder : FolderNode Vec
  deviation : ℝ
  z_score : ℝ

/-- Comparator of `results.sort(key=lambda x: x.coherence)`. -/
def cohLE (a b : FolderAnalysis) : Prop := a.coherence ≤ b.coherence

instance : DecidableRel cohLE := fun a b =>
  inferInstanceAs (Decidable (a.coherence ≤ b.coherence))

instance : IsTotal FolderAnalysis cohLE := ⟨fun a b => le_total a.coherence b.coherence⟩

instance : IsTrans FolderAnalysis cohLE := ⟨fun _ _ _ h h2 => le_trans h h2⟩

/-- Comparator of `sort(key=lambda x: x.z_score, reverse=True)`. -/
def zGE (a b : FileOutlier) : Prop := b.z_score ≤ a.z_score

instance : DecidableRel zGE := fun a b =>
  inferInstanceAs (Decidable (b.z_score ≤ a.z_score))

instance : IsTotal FileOutlier zGE := ⟨fun a b => le_total b.z_score a.z_score⟩

instance : IsTrans FileOutlier zGE := ⟨fun _ _ _ h h2 => le_trans h2 h⟩

/-- `rank_incoherent_folders` from `discrepancy.py`: analyze every folder
of `get_all_folders(root)` with at least `min_files` direct files and a
nonnegative coherence, then sort by coherence ascending (Python's sort is
stable; the model uses stable insertion sort). -/
def rank_incoherent_folders (root : FolderNode Vec) (min_files : ℕ) :
    List FolderAnalysis :=
  let results := (get_all_folders false root).filterMap fun folder =>
    if folder.files.length < min_files then none
    else
      let coherence := compute_folder_coherence folder
      let variance := compute_folder_variance folder
      if coherence < 0 then none
      else some ⟨folder, coherence, variance, folder.files.length, 0⟩
  List.insertionSort cohLE results

/-- `identify_outlier_files` from `discrepancy.py`. -/
def identify_outlier_files (folder : FolderNode Vec) (z_threshold : ℝ) :
    List FileOutlier :=
  match folder.embedding with
  | none => []
  | some femb =>
    if folder.files.isEmpty then []
    else
      let pairs := folder.files.filterMap fun f =>
        f.embedding.map fun e => (f, 1 - cosine_similarity e femb)
      if pairs.length < 2 then []
      else
        let mean_dev := npMean (pairs.map fun fd => fd.2)
        let std_dev := npStd (pairs.map fun fd => fd.2)
        if std_dev = 0 then []
        else
          let outliers := pairs.filterMap fun fd =>
            let z := (fd.2 - mean_dev) / std_dev
            if z_threshold < z then some ⟨fd.1, folder, fd.2, z⟩ else none
          List.insertionSort zGE outliers

/-- `identify_all_outliers` from `discrepancy.py`: pool the per-folder
outliers of every folder of `get_all_folders(root)` with at least
`min_files` direct files, then sort by z-score descending. -/
def identify_all_outliers (root : FolderNode Vec) (z_threshold : ℝ)
    (min_files : ℕ) : List FileOutlier :=
  let allOut := (get_all_folders false root).flatMap fun folder =>
    if folder.files.length < min_files then []
    else identify_outlier_files folder z_threshold
  List.insertionSort zGE allOut

/-! ### Relocation suggestions (`suggestions.py`) -/

/-- `RelocationCandidate` from `suggestions.py`. -/
structure RelocationCandidate where
  folder_path : String
  similarity : ℝ

/-- `Suggestion` from `suggestions.py`. -/
structure Suggestion where
  file_path : String
  current_folder : String
  deviation_score : ℝ
  z_score : ℝ
  candidates : List RelocationCandidate

/-- Comparator of `candidates.sort(key=lambda x: x.similarity,
reverse=True)`. -/
def simGE (a b : RelocationCandidate) : Prop := b.similarity ≤ a.similarity

instance : DecidableRel simGE := fun a b =>
  inferInstanceAs (Decidable (b.similarity ≤ a.similarity))

instance : IsTotal RelocationCandidate simGE := ⟨fun a b => le_total b.similarity a.similarity⟩

instance : IsTrans RelocationCandidate simGE := ⟨fun _ _ _ h h2 => le_trans h2 h⟩

/-- The `exclude_paths` set of `find_similar_folders`: when ancestor
exclusion is on and the file's parent is not `"."`, the current folder
together with all its ancestors. -/
def excludedPaths (file : FileNode Vec) (exclude_ancestors : Bool) :
    List String :=
  if exclude_ancestors then
    let current := PPath.str (parsePath file.path).parent
    if current ≠ "." then current :: get_ancestor_paths file.path else []
  else []

/-- `find_similar_folders` from `suggestions.py`: score every
non-excluded folder of the folder-embedding dict by cosine similarity,
sort by similarity descending (stably) and keep the first `k`. -/
def find_similar_folders (file : FileNode Vec)
    (folder_embeddings : List (String × Vec)) (k : ℕ)
    (exclude_ancestors : Bool) : List RelocationCandidate :=
  match file.embedding with
  | none => []
  | some femb =>
    let exclude_paths := excludedPaths file exclude_ancestors
    let candidates :=
      (folder_embeddings.filter fun fe => !(exclude_paths.contains fe.1)).map
        fun fe => RelocationCandidate.mk fe.1 (cosine_similarity femb fe.2)
    (List.insertionSort simGE candidates).take k

/-- `generate_suggestions` from `suggestions.py`: ask
`find_similar_folders` for `2 * k` candidates, drop those below
`min_similarity`, keep the first `k`, and emit a suggestion only when
that list is nonempty. -/
def generate_suggestions (outliers : List FileOutlier)
    (folder_embeddings : List (String × Vec)) (k : ℕ)
    (min_similarity : ℝ) : List Suggestion :=
  outliers.filterMap fun o =>
    let raw := find_similar_folders o.file folder_embeddings (k * 2) true
    let cands := (raw.filter fun c => decide (min_similarity ≤ c.similarity)).take k
    if cands.isEmpty then none
    else some ⟨o.file.path, o.folder.path, o.deviation, o.z_score, cands⟩

/-! ### Report serialization (`suggestions.py`, `vault_organizer.py`) -/

/-- Python's `round(x, n)` on exact reals: round half to even at `n`
decimal digits. -/
def roundHalfEven (y : ℝ) : ℤ :=
  if Int.fract y < 1 / 2 then ⌊y⌋
  else if 1 / 2 < Int.fract y then ⌊y⌋ + 1
  else if Even ⌊y⌋ then ⌊y⌋ else ⌊y⌋ + 1

/-- `round(x, n)` as a real number. -/
def pyRound (x : ℝ) (n : ℕ) : ℝ := (roundHalfEven (x * 10 ^ n) : ℝ) / 10 ^ n

/-- One entry of the `candidates` field of `Suggestion.to_dict`. -/
structure CandidateDict where
  folder : String
  similarity : ℝ

/-- The dict produced by `Suggestion.to_dict`. -/
structure SuggestionDict where
  file_path : String
  current_folder : String
  deviation_score : ℝ
  z_score : ℝ
  candidates : List CandidateDict

/-- `Suggestion.to_dict` from `suggestions.py`: the stored deviation is
rounded to 4 decimals, the z-score to 2, each similarity to 4. -/
def Suggestion.to_dict (s : Suggestion) : SuggestionDict :=
  ⟨s.file_path, s.current_folder, pyRound s.deviation_score 4,
   pyRound s.z_score 2,
   s.candidates.map fun c => ⟨c.folder_path, pyRound c.similarity 4⟩⟩

/-- `AnalysisReport` from `suggestions.py`. -/
structure AnalysisReport where
  analysis_date : String
  total_files : ℕ
  total_folders : ℕ
  outlier_count : ℕ
  z_threshold : ℝ
  suggestions : List Suggestion

/-- The dict produced by `AnalysisReport.to_dict`. -/
structure AnalysisReportDict where
  analysis_date : String
  total_files : ℕ
  total_folders : ℕ
  outlier_count : ℕ
  z_threshold : ℝ
  suggestions : List SuggestionDict

/-- `AnalysisReport.to_dict` from `suggestions.py`. -/
def AnalysisReport.to_dict (r : AnalysisReport) : AnalysisReportDict :=
  ⟨r.analysis_date, r.total_files, r.total_folders, r.outlier_count,
   r.z_threshold, r.suggestions.map Suggestion.to_dict⟩

/-- The suggestion reconstruction of the `moves` command of
`vault_organizer.py` (lines 317-331): rebuild each `Suggestion` from the
serialized dict fields as they stand. -/
def suggestion_from_dict (d : SuggestionDict) : Suggestion :=
  ⟨d.file_path, d.current_folder, d.deviation_score, d.z_score,
   d.candidates.map fun c => ⟨c.folder, c.similarity⟩⟩

/-- Reconstruction of all suggestions of a serialized report, as done by
the `moves` command of `vault_organizer.py`. -/
def suggestions_from_report_dict (d : AnalysisReportDict) : List Suggestion :=
  d.suggestions.map suggestion_from_dict

/-! ### Clustering (`clustering.py`) -/

/-- `FileCluster` from `clustering.py`. -/
structure FileCluster where
  cluster_id : ℕ
  files : List String
  centroid : Option Vec
  coherence : ℝ
  label : Option String

/-- All unordered pairs of list elements, in the order of the double loop
of `compute_internal_coherence`. -/
def listPairs : List Vec → List (Vec × Vec)
  | [] => []
  | v :: rest => rest.map (fun w => (v, w)) ++ listPairs rest

/-- `compute_internal_coherence` from `clustering.py`: mean pairwise
cosine similarity, `1.0` for fewer than two members. -/
def compute_internal_coherence (files : List String)
    (embeddings : List (String × Vec)) : ℝ :=
  if files.length < 2 then 1
  else
    let vecs := files.filterMap fun f => List.lookup f embeddings
    if vecs.length < 2 then 1
    else
      let sims := (listPairs vecs).map fun ab => cosine_similarity ab.1 ab.2
      if sims.isEmpty then 1 else npMean sims

/-- Comparator of `clusters.sort(key=lambda c: len(c.files),
reverse=True)`. -/
def sizeGE (a b : FileCluster) : Prop := b.files.length ≤ a.files.length

instance : DecidableRel sizeGE := fun a b =>
  inferInstanceAs (Decidable (b.files.length ≤ a.files.length))

instance : IsTotal FileCluster sizeGE := ⟨fun a b => le_total b.files.length a.files.length⟩

instance : IsTrans FileCluster sizeGE := ⟨fun _ _ _ h h2 => le_trans h2 h⟩

/-- Labels in order of first occurrence: the key order of the
`cluster_files_map` dict built by `cluster_files`. -/
def firstSeenAux (seen : List ℕ) : List ℕ → List ℕ
  | [] => []
  | x :: xs =>
    if seen.contains x then firstSeenAux seen xs
    else x :: firstSeenAux (x :: seen) xs

def firstSeen (l : List ℕ) : List ℕ := firstSeenAux [] l

/-- `cluster_files` from `clustering.py`. The call to
`sklearn.cluster.AgglomerativeClustering(...).fit_predict` is an external
collaborator and enters as the opaque parameter `fitPredict`, applied to
the normalized matrix and the distance threshold, exactly where the
source calls it. Note that the single-file branch divides by the norm of
the vector with no zero guard, exactly as the source does. -/
def cluster_files (fitPredict : List Vec → ℝ → List ℕ)
    (embeddings : List (String × Vec)) (distance_threshold : ℝ) :
    List FileCluster :=
  if embeddings.isEmpty then []
  else
    let paths := embeddings.map fun pv => pv.1
    let X := embeddings.map fun pv => pv.2
    if paths.length = 1 then
      [⟨0, paths, some (X.headI.map fun x => x / l2norm X.headI), 1, none⟩]
    else
      let Xn := X.map fun v =>
        let n := l2norm v
        let n2 := if n = 0 then 1 else n
        v.map fun x => x / n2
      let labels := fitPredict Xn distance_threshold
      let pl := List.zip paths labels
      let clusters := (firstSeen labels).map fun lab =>
        let cfiles := (pl.filter fun q => q.2 == lab).map fun q => q.1
        let cembs := cfiles.filterMap fun f => List.lookup f embeddings
        let cent := vecMean cembs
        let cent2 := if 0 < l2norm cent then cent.map (fun x => x / l2norm cent) else cent
        FileCluster.mk lab cfiles (some cent2)
          (compute_internal_coherence cfiles embeddings) none
      (List.insertionSort sizeGE clusters).mapIdx fun i c =>
        { c with cluster_id := i }

/-! ### Specification-side reference for the suggester (C7) -/

/-- Modelled from the spec (section 4.5), not from the source: score every
non-excluded folder by cosine similarity, drop candidates below
`min_similarity`, sort the survivors by similarity descending, truncate
to the top `k`. This is the reference computation that claim C7 compares
against `generate_suggestions`. -/
def specNaiveCandidates (file : FileNode Vec)
    (folder_embeddings : List (String × Vec)) (k : ℕ)
    (min_similarity : ℝ) : List RelocationCandidate :=
  match file.embedding with
  | none => []
  | some femb =>
    let exclude_paths := excludedPaths file true
    let scored :=
      (folder_embeddings.filter fun fe => !(exclude_paths.contains fe.1)).map
        fun fe => RelocationCandidate.mk fe.1 (cosine_similarity femb fe.2)
    let surviving := scored.filter fun c => decide (min_similarity ≤ c.similarity)
    (List.insertionSort simGE surviving).take k

end

/-! ### Auxiliary definitions for the development and concrete inputs -/

/-- A concrete suggestion whose deviation score has more than four
decimal digits. -/
noncomputable def c2cex : Suggestion := ⟨"a/b.md", "a", 1 / 3, 0, []⟩

/-- A valid normalized path segment: nonempty, not `"."`, slash-free. -/
def GoodSeg (t : String) : Prop := t ≠ "" ∧ t ≠ "." ∧ '/' ∉ t.toList

/-- A valid `PurePosixPath` root marker. -/
def canonRoot (rt : String) : Prop := rt = "" ∨ rt = "/" ∨ rt = "//"

/-- Join character segments with single slashes. -/
def charJoin : List (List Char) → List Char
  | [] => []
  | [s] => s
  | s :: rest => s ++ '/' :: charJoin rest

/-- The ancestor chain of a folder path string, itself included:
the paths the `get_ancestor_paths` loop would emit starting at the path
itself rather than at its parent. -/
def chainOf (x : String) : List String :=
  ancStrs (parsePath x).root (parsePath x).parts.reverse

/-- A tree is ancestor-closed when the whole ancestor chain of every
folder path present is also present. `build_tree` maintains this
invariant: `get_or_create_folder` creates all missing ancestors of every
folder it creates. -/
def AncClosed {α} (t : FolderNode α) : Prop :=
  ∀ x ∈ allFolderPaths t, ∀ a ∈ chainOf x, a ∈ allFolderPaths t

/-- The parent folder path that the file loop of `build_tree` computes
for a file path. -/
def parentPathOf (v : String) : String :=
  if PPath.str (parsePath v).parent ≠ "." then PPath.str (parsePath v).parent
  else ""

/-- The construction invariant of `build_tree`: the accumulated tree is
rooted at the empty path, has pairwise distinct folder paths, and is
ancestor-closed. -/
def TreeInv {α} (t : FolderNode α) : Prop :=
  t.path = "" ∧ (allFolderPaths t).Nodup ∧ AncClosed t

/-- The per-node property stated by claim C3 for an aggregated tree: a
node with an empty collected child-embedding list has no embedding; a
node whose collected list has a mean of nonzero norm stores the
normalized mean; a node whose collected list has a mean of zero norm
stores the (all-zero) mean itself, unnormalized. -/
def aggNodeProp (u : FolderNode Vec) : Prop :=
  (childEmbList u = [] → u.embedding = none) ∧
  (childEmbList u ≠ [] → l2norm (vecMean (childEmbList u)) ≠ 0 →
    u.embedding = some ((vecMean (childEmbList u)).map
      fun x => x / l2norm (vecMean (childEmbList u)))) ∧
  (childEmbList u ≠ [] → l2norm (vecMean (childEmbList u)) = 0 →
    u.embedding = some (vecMean (childEmbList u)) ∧
      ∀ x ∈ vecMean (childEmbList u), x = 0)

/-- A one-file tree used as witness input for claim C3. -/
def c3w : FolderNode Vec := .mk "a" [⟨"a/f.md", some [1]⟩] [] none

/-- A folder whose two file embeddings are nonzero but opposite, so the
mean collapses to the zero vector. -/
def t4cex : FolderNode Vec := .mk "a" [⟨"a/f.md", some [1]⟩, ⟨"a/g.md", some [-1]⟩] [] none

/-- A one-file tree used as witness input for claim C4. -/
def c4w : FolderNode Vec := .mk "b" [⟨"b/f.md", some [1]⟩] [] none

/-- The file and folder-embedding map of the counterexample to claim C6:
a nested file and a map that contains the root path `""` as a key. -/
noncomputable def c6file : FileNode Vec := ⟨"A/B/c.md", some [1]⟩

noncomputable def c6fe : List (String × Vec) := [("", [1])]

/-! ### Basic numeric lemmas -/

theorem zipWith_mul_self (v : Vec) :
    List.zipWith (· * ·) v v = v.map fun x => x * x := by
  induction v with
  | nil => rfl
  | cons a t ih => simp [ih]

theorem sumSq_nonneg (v : Vec) : 0 ≤ (v.map fun x => x * x).sum := by
  apply List.sum_nonneg
  intro x hx
  obtain ⟨y, _, rfl⟩ := List.mem_map.mp hx
  exact mul_self_nonneg y

theorem l2norm_nonneg (v : Vec) : 0 ≤ l2norm v := Real.sqrt_nonneg _

theorem l2norm_pos_of_mem_ne_zero {v : Vec} (h : ∃ x ∈ v, x ≠ 0) :
    0 < l2norm v := by
  obtain ⟨x, hx, hne⟩ := h
  have hmem : x * x ∈ v.map fun y => y * y := List.mem_map_of_mem _ hx
  have hxx : 0 < x * x := mul_self_pos.mpr hne
  have hle := List.single_le_sum
    (fun z hz => by
      obtain ⟨y, hy, rfl⟩ := List.mem_map.mp hz
      exact mul_self_nonneg y)
    _ hmem
  exact Real.sqrt_pos.mpr (lt_of_lt_of_le hxx hle)

theorem l2norm_sq (v : Vec) : l2norm v * l2norm v = (v.map fun x => x * x).sum :=
  Real.mul_self_sqrt (sumSq_nonneg v)

/-- If the norm of a vector is zero, every entry is zero. -/
theorem all_zero_of_l2norm_eq_zero {v : Vec} (h : l2norm v = 0) :
    ∀ x ∈ v, x = 0 := by
  intro x hx
  by_contra hne
  exact absurd h (ne_of_gt (l2norm_pos_of_mem_ne_zero ⟨x, hx, hne⟩))

theorem sum_map_div (l : List ℝ) (c : ℝ) :
    (l.map fun x => x / c).sum = l.sum / c := by
  induction l with
  | nil => simp
  | cons a t ih => simp [ih, add_div]

/-- Normalizing a vector of nonzero norm yields a unit vector. -/
theorem l2norm_normalize {v : Vec} (h : l2norm v ≠ 0) :
    l2norm (v.map fun x => x / l2norm v) = 1 := by
  have hn : (0:ℝ) < l2norm v := lt_of_le_of_ne (l2norm_nonneg v) (Ne.symm h)
  have hmap : ((v.map fun x => x / l2norm v).map fun x => x * x)
      = (v.map fun x => x * x).map fun y => y / (l2norm v * l2norm v) := by
    simp only [List.map_map]
    apply List.map_congr_left
    intro a _
    simp [div_mul_div_comm]
  have hsum : ((v.map fun x => x / l2norm v).map fun x => x * x).sum
      = ((v.map fun x => x * x).sum) / (l2norm v * l2norm v) := by
    rw [hmap, sum_map_div]
  rw [show l2norm (v.map fun x => x / l2norm v)
      = Real.sqrt (((v.map fun x => x / l2norm v).map fun x => x * x).sum) from rfl]
  rw [hsum, ← l2norm_sq v, div_self (by positivity)]
  exact Real.sqrt_one

/-! ### Claim C9 -/

/-- Claim C9: for every nonzero vector `v`, `cosine_similarity v v = 1`;
and whenever either argument has zero L2 norm, `cosine_similarity`
returns exactly `0` (it is a total function, so no division fault can
occur). -/
theorem claim_C9 :
    (∀ v : Vec, (∃ x ∈ v, x ≠ 0) → cosine_similarity v v = 1) ∧
    (∀ a b : Vec, l2norm a = 0 →
      cosine_similarity a b = 0 ∧ cosine_similarity b a = 0) := by
  constructor
  · intro v hv
    have hpos := l2norm_pos_of_mem_ne_zero hv
    have hne : l2norm v ≠ 0 := ne_of_gt hpos
    have hs : (v.map fun x => x * x).sum ≠ 0 := by
      rw [← l2norm_sq v]; positivity
    unfold cosine_similarity
    rw [if_neg (by simp [hne])]
    unfold dot
    rw [zipWith_mul_self, l2norm_sq, div_self hs]
  · intro a b ha
    constructor <;> · unfold cosine_similarity; rw [if_pos (by simp [ha])]

/-- Witness for claim C9 at concrete inputs. -/
theorem claim_C9_witness :
    cosine_similarity [(1:ℝ)] [(1:ℝ)] = 1 ∧
    cosine_similarity [(0:ℝ)] [(1:ℝ)] = 0 :=
  ⟨claim_C9.1 [(1:ℝ)] ⟨1, by simp, one_ne_zero⟩,
   (claim_C9.2 [(0:ℝ)] [(1:ℝ)] (by simp [l2norm])).1⟩

/-! ### Claim C8 -/

/-- Claim C8: `cluster_files` (for any behavior of the external
agglomerative-clustering collaborator) returns the empty list on zero
files, and on exactly one file returns a single cluster with id `0`,
containing exactly that file, whose centroid is the file's embedding
divided by its L2 norm and whose coherence is `1.0`; the computation is
total (no division fault) for every input vector, including a vector of
zero norm. -/
theorem claim_C8 (fitPredict : List Vec → ℝ → List ℕ) (θ : ℝ)
    (p : String) (v : Vec) :
    cluster_files fitPredict [] θ = [] ∧
    cluster_files fitPredict [(p, v)] θ =
      [⟨0, [p], some (v.map fun x => x / l2norm v), 1, none⟩] := by
  constructor
  · simp [cluster_files]
  · simp [cluster_files]

/-! ### Claim C2 -/

theorem pyRound_third : pyRound (1 / 3 : ℝ) 4 = 3333 / 10000 := by
  unfold pyRound roundHalfEven
  have hfl : (⌊(1 / 3 : ℝ) * 10 ^ 4⌋ : ℤ) = 3333 := by norm_num
  have hfr : Int.fract ((1 / 3 : ℝ) * 10 ^ 4) < 1 / 2 := by
    rw [Int.fract]
    rw [hfl]
    norm_num
  rw [if_pos hfr, hfl]
  norm_num

/-- Counterexample to claim C2: serializing the suggestion `c2cex` with
`Suggestion.to_dict` and reconstructing it (as the `moves` command of
`vault_organizer.py` does) changes the stored deviation score from `1/3`
to the rounded `0.3333`: the stored values are rounded, so the round
trip is not lossless. -/
theorem claim_C2_counterexample :
    (suggestion_from_dict (Suggestion.to_dict c2cex)).deviation_score
        = 3333 / 10000 ∧
    (suggestion_from_dict (Suggestion.to_dict c2cex)).deviation_score
        ≠ c2cex.deviation_score := by
  have h : (suggestion_from_dict (Suggestion.to_dict c2cex)).deviation_score
      = pyRound (1 / 3 : ℝ) 4 := rfl
  rw [h, pyRound_third]
  constructor
  · rfl
  · show (3333 / 10000 : ℝ) ≠ (c2cex.deviation_score)
    show (3333 / 10000 : ℝ) ≠ (1 / 3 : ℝ)
    norm_num

/-- Claim C2, amended: serializing a suggestion with `Suggestion.to_dict`
and reconstructing it preserves the file path, the current folder, and
the candidate folder ordering exactly, but stores the deviation score
rounded to 4 decimal places, the z-score to 2, and each candidate
similarity to 4; the numeric scores survive the round trip unchanged
exactly when they are already at that precision. -/
theorem claim_C2_amended (s : Suggestion) :
    (suggestion_from_dict (Suggestion.to_dict s)).file_path = s.file_path ∧
    (suggestion_from_dict (Suggestion.to_dict s)).current_folder
        = s.current_folder ∧
    (suggestion_from_dict (Suggestion.to_dict s)).candidates.map
        (fun c => c.folder_path) = s.candidates.map (fun c => c.folder_path) ∧
    (suggestion_from_dict (Suggestion.to_dict s)).deviation_score
        = pyRound s.deviation_score 4 ∧
    (suggestion_from_dict (Suggestion.to_dict s)).z_score
        = pyRound s.z_score 2 ∧
    (suggestion_from_dict (Suggestion.to_dict s)).candidates.map
        (fun c => c.similarity)
        = s.candidates.map (fun c => pyRound c.similarity 4) := by
  refine ⟨rfl, rfl, ?_, rfl, rfl, ?_⟩ <;>
    simp [Suggestion.to_dict, suggestion_from_dict, List.map_map, Function.comp]

/-! ### Path model lemmas -/

theorem segsAux_ne_nil (cs : List Char) : segsAux cs ≠ [] := by
  induction cs with
  | nil => simp [segsAux]
  | cons c rest ih =>
    unfold segsAux
    by_cases hc : c = '/'
    · simp [hc]
    · simp only [hc, if_false]
      cases h : segsAux rest with
      | nil => exact absurd h ih
      | cons s ss => simp

theorem segsAux_no_slash (cs : List Char) :
    ∀ seg ∈ segsAux cs, '/' ∉ seg := by
  induction cs with
  | nil => intro seg hs; simp [segsAux] at hs; simp [hs]
  | cons c rest ih =>
    intro seg hs
    unfold segsAux at hs
    by_cases hc : c = '/'
    · simp only [hc, if_true, List.mem_cons] at hs
      rcases hs with h | h
      · simp [h]
      · exact ih seg h
    · simp only [hc, if_false] at hs
      cases h : segsAux rest with
      | nil => exact absurd h (segsAux_ne_nil rest)
      | cons s ss =>
        rw [h] at hs
        simp only [List.mem_cons] at hs
        rcases hs with rfl | hmem
        · intro hin
          rcases List.mem_cons.mp hin with h1 | h2
          · exact hc h1.symm
          · exact ih s (by rw [h]; exact List.mem_cons_self s ss) h2
        · exact ih seg (by rw [h]; exact List.mem_cons_of_mem s hmem)

theorem segsAux_of_no_slash (cs : List Char) (h : '/' ∉ cs) :
    segsAux cs = [cs] := by
  induction cs with
  | nil => rfl
  | cons c rest ih =>
    have hc : c ≠ '/' := fun hcc => h (by simp [hcc])
    have hrest : '/' ∉ rest := fun hr => h (List.mem_cons_of_mem c hr)
    unfold segsAux
    simp only [hc, if_false, ih hrest]

theorem segsAux_append_no_slash (cs l : List Char) (h : '/' ∉ cs)
    {s : List Char} {ss : List (List Char)} (hl : segsAux l = s :: ss) :
    segsAux (cs ++ l) = (cs ++ s) :: ss := by
  induction cs with
  | nil => simpa using hl
  | cons c rest ih =>
    have hc : c ≠ '/' := fun hcc => h (by simp [hcc])
    have hrest : '/' ∉ rest := fun hr => h (List.mem_cons_of_mem c hr)
    have hrec := ih hrest
    unfold segsAux
    simp only [List.cons_append, hc, if_false]
    rw [hrec]

theorem segsAux_charJoin :
    ∀ css : List (List Char), css ≠ [] → (∀ s ∈ css, '/' ∉ s) →
      segsAux (charJoin css) = css
  | [], h, _ => absurd rfl h
  | [s], _, hns => by
    rw [show charJoin [s] = s from rfl]
    exact segsAux_of_no_slash s (hns s (by simp))
  | s :: s2 :: rest, _, hns => by
    have hrec := segsAux_charJoin (s2 :: rest) (by simp)
      (fun u hu => hns u (List.mem_cons_of_mem s hu))
    have hslash : segsAux ('/' :: charJoin (s2 :: rest))
        = [] :: s2 :: rest := by
      unfold segsAux
      simp [hrec]
    have := segsAux_append_no_slash s ('/' :: charJoin (s2 :: rest))
      (hns s (by simp)) hslash
    rw [show charJoin (s :: s2 :: rest) = s ++ '/' :: charJoin (s2 :: rest) from rfl]
    rw [this]
    simp

theorem toList_append (a b : String) : (a ++ b).toList = a.toList ++ b.toList := by
  cases a
  cases b
  rfl

theorem toList_asString (l : List Char) : l.asString.toList = l := rfl

theorem asString_toList (s : String) : s.toList.asString = s := by
  cases s
  rfl

theorem toList_eq_nil_iff (s : String) : s.toList = [] ↔ s = "" := by
  cases s with
  | mk data =>
    constructor
    · intro h
      have hd : data = [] := h
      rw [hd]
    · intro h
      rw [h]
      rfl

theorem toList_joinSegs (ps : List String) :
    (joinSegs ps).toList = charJoin (ps.map String.toList) := by
  match ps with
  | [] => rfl
  | [t] => rfl
  | t :: t2 :: rest =>
    have ih := toList_joinSegs (t2 :: rest)
    rw [show joinSegs (t :: t2 :: rest) = t ++ "/" ++ joinSegs (t2 :: rest) from rfl]
    rw [toList_append, toList_append, ih]
    rw [show List.map String.toList (t :: t2 :: rest)
        = t.toList :: t2.toList :: List.map String.toList rest from rfl]
    rw [show charJoin (t.toList :: t2.toList :: List.map String.toList rest)
        = t.toList ++ '/' :: charJoin (t2.toList :: List.map String.toList rest) from rfl]
    rw [show ("/" : String).toList = ['/'] from rfl]
    rw [List.append_assoc]
    rfl

theorem append_empty_str (s : String) : s ++ "" = s := by
  cases s with
  | mk data =>
    show String.mk (data ++ []) = String.mk data
    rw [List.append_nil]

theorem rootOf_of_head_ne_slash {c : Char} {cs : List Char} (hc : c ≠ '/')
    {s : String} (hs : s.toList = c :: cs) : rootOf s = "" := by
  unfold rootOf
  rw [hs]
  simp [hc]

theorem rootOf_of_one_slash {c : Char} {cs : List Char} (hc : c ≠ '/')
    {s : String} (hs : s.toList = '/' :: c :: cs) : rootOf s = "/" := by
  unfold rootOf
  rw [hs]
  simp [hc]

theorem rootOf_of_two_slash {c : Char} {cs : List Char} (hc : c ≠ '/')
    {s : String} (hs : s.toList = '/' :: '/' :: c :: cs) : rootOf s = "//" := by
  unfold rootOf
  rw [hs]
  simp [hc]

theorem charJoin_cons_good (t : String) (rest : List String) (h : GoodSeg t) :
    ∃ c cs, charJoin ((t :: rest).map String.toList) = c :: cs ∧ c ≠ '/' := by
  obtain ⟨hne, -, hns⟩ := h
  have htl : t.toList ≠ [] := fun hnil => hne ((toList_eq_nil_iff t).mp hnil)
  obtain ⟨c, cs', hc⟩ := List.exists_cons_of_ne_nil htl
  have hcne : c ≠ '/' := by
    intro hcc
    exact hns (by rw [hc, hcc]; exact List.mem_cons_self _ _)
  cases rest with
  | nil =>
    refine ⟨c, cs', ?_, hcne⟩
    rw [show charJoin ((t :: []).map String.toList) = t.toList from rfl]
    exact hc
  | cons r rs =>
    refine ⟨c, cs' ++ '/' :: charJoin ((r :: rs).map String.toList), ?_, hcne⟩
    rw [show charJoin ((t :: r :: rs).map String.toList)
        = t.toList ++ '/' :: charJoin ((r :: rs).map String.toList) from rfl]
    rw [hc]
    rfl

theorem good_filter_keeps {ps : List String} (h : ∀ t ∈ ps, GoodSeg t) :
    ps.filter (fun t => !(t == "") && !(t == ".")) = ps := by
  apply List.filter_eq_self.mpr
  intro t ht
  obtain ⟨h1, h2, -⟩ := h t ht
  simp [h1, h2]

theorem map_asString_toList (ps : List String) :
    (ps.map String.toList).map List.asString = ps := by
  rw [List.map_map]
  have hco : List.asString ∘ String.toList = id := funext asString_toList
  rw [hco, List.map_id]

theorem parseParts_rel {ps : List String} (hps : ps ≠ [])
    (h : ∀ t ∈ ps, GoodSeg t) : parseParts (joinSegs ps) = ps := by
  unfold parseParts rawSegs
  rw [toList_joinSegs]
  rw [segsAux_charJoin (ps.map String.toList) (by simpa using hps)
    (by intro s hs
        obtain ⟨t, ht, rfl⟩ := List.mem_map.mp hs
        exact (h t ht).2.2)]
  rw [map_asString_toList]
  exact good_filter_keeps h

theorem empty_append_str (s : String) : "" ++ s = s := by
  cases s with
  | mk data =>
    show String.mk ([] ++ data) = String.mk data
    rw [List.nil_append]

theorem segsAux_slash_cons (l : List Char) :
    segsAux ('/' :: l) = [] :: segsAux l := rfl

theorem rootOf_canon (s : String) : canonRoot (rootOf s) := by
  simp only [rootOf, canonRoot]
  split_ifs <;> simp

theorem parseParts_good (s : String) : ∀ t ∈ parseParts s, GoodSeg t := by
  intro t ht
  unfold parseParts at ht
  have hmem := List.mem_of_mem_filter ht
  have hpred := List.of_mem_filter ht
  simp only [Bool.and_eq_true, Bool.not_eq_true', beq_eq_false_iff_ne] at hpred
  refine ⟨hpred.1, hpred.2, ?_⟩
  unfold rawSegs at hmem
  obtain ⟨seg, hseg, rfl⟩ := List.mem_map.mp hmem
  rw [toList_asString]
  exact segsAux_no_slash s.toList seg hseg

theorem parsePath_str_roundtrip (rt : String) (ps : List String)
    (hrt : canonRoot rt) (hps : ∀ t ∈ ps, GoodSeg t) :
    parsePath (PPath.str ⟨rt, ps⟩) = ⟨rt, ps⟩ := by
  rcases hrt with rfl | rfl | rfl
  · cases ps with
    | nil =>
      rw [show PPath.str ⟨"", []⟩ = "." from rfl]
      decide
    | cons t rest =>
      have hstr : PPath.str ⟨"", t :: rest⟩ = joinSegs (t :: rest) := by
        unfold PPath.str
        rw [if_neg (by simp)]
        exact empty_append_str _
      rw [hstr]
      obtain ⟨c, cs, hcj, hc⟩ := charJoin_cons_good t rest (hps t (by simp))
      have htl : (joinSegs (t :: rest)).toList = c :: cs := by
        rw [toList_joinSegs, hcj]
      unfold parsePath
      rw [rootOf_of_head_ne_slash hc htl, parseParts_rel (by simp) hps]
  · cases ps with
    | nil =>
      rw [show PPath.str ⟨"/", []⟩ = "/" ++ joinSegs [] from rfl]
      rw [show joinSegs [] = "" from rfl, append_empty_str]
      decide
    | cons t rest =>
      have hstr : PPath.str ⟨"/", t :: rest⟩ = "/" ++ joinSegs (t :: rest) := by
        unfold PPath.str
        rw [if_neg (by simp)]
      rw [hstr]
      obtain ⟨c, cs, hcj, hc⟩ := charJoin_cons_good t rest (hps t (by simp))
      have htl : ("/" ++ joinSegs (t :: rest)).toList = '/' :: c :: cs := by
        rw [toList_append, toList_joinSegs, hcj]
        rfl
      unfold parsePath
      rw [rootOf_of_one_slash hc htl]
      unfold parseParts rawSegs
      rw [htl, show ('/' :: c :: cs) = '/' :: (c :: cs) from rfl, segsAux_slash_cons]
      rw [show c :: cs = (joinSegs (t :: rest)).toList by rw [toList_joinSegs, hcj]]
      rw [toList_joinSegs]
      rw [segsAux_charJoin ((t :: rest).map String.toList) (by simp)
        (by intro u hu
            obtain ⟨w, hw, rfl⟩ := List.mem_map.mp hu
            exact (hps w hw).2.2)]
      rw [show (([] : List Char) :: (t :: rest).map String.toList).map List.asString
          = "" :: ((t :: rest).map String.toList).map List.asString from rfl]
      rw [map_asString_toList]
      rw [show ("" :: t :: rest).filter (fun u => !(u == "") && !(u == "."))
          = (t :: rest).filter (fun u => !(u == "") && !(u == ".")) by simp]
      rw [good_filter_keeps hps]
  · cases ps with
    | nil =>
      rw [show PPath.str ⟨"//", []⟩ = "//" ++ joinSegs [] from rfl]
      rw [show joinSegs [] = "" from rfl, append_empty_str]
      decide
    | cons t rest =>
      have hstr : PPath.str ⟨"//", t :: rest⟩ = "//" ++ joinSegs (t :: rest) := by
        unfold PPath.str
        rw [if_neg (by simp)]
      rw [hstr]
      obtain ⟨c, cs, hcj, hc⟩ := charJoin_cons_good t rest (hps t (by simp))
      have htl : ("//" ++ joinSegs (t :: rest)).toList = '/' :: '/' :: c :: cs := by
        rw [toList_append, toList_joinSegs, hcj]
        rfl
      unfold parsePath
      rw [rootOf_of_two_slash hc htl]
      unfold parseParts rawSegs
      rw [htl, show ('/' :: '/' :: c :: cs) = '/' :: ('/' :: c :: cs) from rfl,
        segsAux_slash_cons, show ('/' :: c :: cs) = '/' :: (c :: cs) from rfl,
        segsAux_slash_cons]
      rw [show c :: cs = (joinSegs (t :: rest)).toList by rw [toList_joinSegs, hcj]]
      rw [toList_joinSegs]
      rw [segsAux_charJoin ((t :: rest).map String.toList) (by simp)
        (by intro u hu
            obtain ⟨w, hw, rfl⟩ := List.mem_map.mp hu
            exact (hps w hw).2.2)]
      rw [show (([] : List Char) :: ([] : List Char) :: (t :: rest).map String.toList).map
            List.asString
          = "" :: "" :: ((t :: rest).map String.toList).map List.asString from rfl]
      rw [map_asString_toList]
      rw [show ("" :: "" :: t :: rest).filter (fun u => !(u == "") && !(u == "."))
          = (t :: rest).filter (fun u => !(u == "") && !(u == ".")) by simp]
      rw [good_filter_keeps hps]

/-! ### Tree lemmas -/

theorem FolderNode.strongInduction {α} {motive : FolderNode α → Prop}
    (h : ∀ p fs subs e, (∀ s ∈ subs, motive s) → motive (.mk p fs subs e)) :
    ∀ t, motive t
  | .mk p fs subs e =>
    h p fs subs e (fun s hs =>
      have : sizeOf s < sizeOf (FolderNode.mk p fs subs e) := by
        have hlt := List.sizeOf_lt_of_mem hs
        simp only [FolderNode.mk.sizeOf_spec]
        omega
      FolderNode.strongInduction h s)
termination_by t => sizeOf t

theorem mem_allFolderPathsL {α} {x : String} {l : List (FolderNode α)} :
    x ∈ allFolderPathsL l ↔ ∃ s ∈ l, x ∈ allFolderPaths s := by
  induction l with
  | nil => simp [allFolderPathsL]
  | cons s ss ih =>
    rw [show allFolderPathsL (s :: ss) = allFolderPaths s ++ allFolderPathsL ss from rfl]
    simp [ih]

theorem mem_allFilePathsL {α} {x : String} {l : List (FolderNode α)} :
    x ∈ allFilePathsL l ↔ ∃ s ∈ l, x ∈ allFilePaths s := by
  induction l with
  | nil => simp [allFilePathsL]
  | cons s ss ih =>
    rw [show allFilePathsL (s :: ss) = allFilePaths s ++ allFilePathsL ss from rfl]
    simp [ih]

theorem allFolderPaths_def {α} (p : String) (fs : List (FileNode α)) subs e :
    allFolderPaths (FolderNode.mk p fs subs e) = p :: allFolderPathsL subs := rfl

theorem allFilePaths_def {α} (p : String) (fs : List (FileNode α)) subs e :
    allFilePaths (FolderNode.mk p fs subs e)
      = fs.map (fun f => f.path) ++ allFilePathsL subs := rfl

theorem path_mem_allFolderPaths {α} (t : FolderNode α) :
    t.path ∈ allFolderPaths t := by
  cases t
  rw [allFolderPaths_def]
  exact List.mem_cons_self _ _

theorem containsFolder_iff {α} (t : FolderNode α) (x : String) :
    containsFolder t x = true ↔ x ∈ allFolderPaths t := by
  unfold containsFolder
  exact List.elem_iff

theorem containsFile_iff {α} (t : FolderNode α) (x : String) :
    containsFile t x = true ↔ x ∈ allFilePaths t := by
  unfold containsFile
  exact List.elem_iff

theorem addFolderUnder_path {α} (pp : String) (n t : FolderNode α) :
    (addFolderUnder pp n t).path = t.path := by
  cases t with
  | mk p fs subs e =>
    unfold addFolderUnder
    by_cases hp : p = pp <;> simp [hp, FolderNode.path]

theorem addFileUnder_path {α} (pp : String) (f : FileNode α) (t : FolderNode α) :
    (addFileUnder pp f t).path = t.path := by
  cases t with
  | mk p fs subs e =>
    unfold addFileUnder
    by_cases hp : p = pp <;> simp [hp, FolderNode.path]

theorem allFolderPathsL_append {α} (l1 l2 : List (FolderNode α)) :
    allFolderPathsL (l1 ++ l2) = allFolderPathsL l1 ++ allFolderPathsL l2 := by
  induction l1 with
  | nil => rfl
  | cons s ss ih =>
    rw [List.cons_append,
      show allFolderPathsL (s :: (ss ++ l2)) = allFolderPaths s ++ allFolderPathsL (ss ++ l2) from rfl,
      show allFolderPathsL (s :: ss) = allFolderPaths s ++ allFolderPathsL ss from rfl,
      ih, List.append_assoc]

theorem allFilePathsL_append {α} (l1 l2 : List (FolderNode α)) :
    allFilePathsL (l1 ++ l2) = allFilePathsL l1 ++ allFilePathsL l2 := by
  induction l1 with
  | nil => rfl
  | cons s ss ih =>
    rw [List.cons_append,
      show allFilePathsL (s :: (ss ++ l2)) = allFilePaths s ++ allFilePathsL (ss ++ l2) from rfl,
      show allFilePathsL (s :: ss) = allFilePaths s ++ allFilePathsL ss from rfl,
      ih, List.append_assoc]

theorem addFolderUnderL_paths_aux {α} {pp x : String} {n : FolderNode α}
    {l : List (FolderNode α)}
    (hpt : ∀ s ∈ l, x ∈ allFolderPaths (addFolderUnder pp n s) ↔
      x ∈ allFolderPaths s ∨ (pp ∈ allFolderPaths s ∧ x ∈ allFolderPaths n)) :
    x ∈ allFolderPathsL (addFolderUnderL pp n l) ↔
      x ∈ allFolderPathsL l ∨ (pp ∈ allFolderPathsL l ∧ x ∈ allFolderPaths n) := by
  induction l with
  | nil => simp [addFolderUnderL, allFolderPathsL]
  | cons s ss ih =>
    rw [show addFolderUnderL pp n (s :: ss)
        = addFolderUnder pp n s :: addFolderUnderL pp n ss from rfl]
    rw [show allFolderPathsL (addFolderUnder pp n s :: addFolderUnderL pp n ss)
        = allFolderPaths (addFolderUnder pp n s) ++ allFolderPathsL (addFolderUnderL pp n ss) from rfl]
    rw [show allFolderPathsL (s :: ss) = allFolderPaths s ++ allFolderPathsL ss from rfl]
    have h1 := hpt s (List.mem_cons_self s ss)
    have h2 := ih (fun u hu => hpt u (List.mem_cons_of_mem s hu))
    simp only [List.mem_append, h1, h2]
    tauto

theorem mem_paths_addFolderUnder {α} (pp x : String) (n : FolderNode α) :
    ∀ t : FolderNode α, x ∈ allFolderPaths (addFolderUnder pp n t) ↔
      x ∈ allFolderPaths t ∨ (pp ∈ allFolderPaths t ∧ x ∈ allFolderPaths n) := by
  refine FolderNode.strongInduction ?_
  intro p fs subs e IH
  by_cases hp : p = pp
  · subst hp
    rw [show addFolderUnder p n (.mk p fs subs e) = .mk p fs (subs ++ [n]) e by
      unfold addFolderUnder; simp]
    rw [allFolderPaths_def, allFolderPaths_def, allFolderPathsL_append]
    rw [show allFolderPathsL [n] = allFolderPaths n ++ allFolderPathsL [] from rfl]
    rw [show allFolderPathsL ([] : List (FolderNode α)) = [] from rfl]
    simp only [List.append_nil, List.mem_cons, List.mem_append]
    tauto
  · rw [show addFolderUnder pp n (.mk p fs subs e)
        = .mk p fs (addFolderUnderL pp n subs) e by
      unfold addFolderUnder; simp [hp]]
    rw [allFolderPaths_def, allFolderPaths_def]
    have hl := addFolderUnderL_paths_aux IH
    simp only [List.mem_cons, hl]
    have hppne : pp ≠ p := fun hh => hp hh.symm
    constructor
    · rintro (rfl | h | h)
      · exact Or.inl (Or.inl rfl)
      · exact Or.inl (Or.inr h)
      · exact Or.inr ⟨Or.inr h.1, h.2⟩
    · rintro ((rfl | h) | h)
      · exact Or.inl rfl
      · exact Or.inr (Or.inl h)
      · rcases h.1 with h1 | h1
        · exact absurd h1.symm hp
        · exact Or.inr (Or.inr ⟨h1, h.2⟩)

theorem addFolderUnderL_files_aux {α} {pp x : String} {n : FolderNode α}
    {l : List (FolderNode α)}
    (hpt : ∀ s ∈ l, x ∈ allFilePaths (addFolderUnder pp n s) ↔
      x ∈ allFilePaths s ∨ (pp ∈ allFolderPaths s ∧ x ∈ allFilePaths n)) :
    x ∈ allFilePathsL (addFolderUnderL pp n l) ↔
      x ∈ allFilePathsL l ∨ (pp ∈ allFolderPathsL l ∧ x ∈ allFilePaths n) := by
  induction l with
  | nil => simp [addFolderUnderL, allFilePathsL, allFolderPathsL]
  | cons s ss ih =>
    rw [show addFolderUnderL pp n (s :: ss)
        = addFolderUnder pp n s :: addFolderUnderL pp n ss from rfl]
    rw [show allFilePathsL (addFolderUnder pp n s :: addFolderUnderL pp n ss)
        = allFilePaths (addFolderUnder pp n s) ++ allFilePathsL (addFolderUnderL pp n ss) from rfl]
    rw [show allFilePathsL (s :: ss) = allFilePaths s ++ allFilePathsL ss from rfl]
    rw [show allFolderPathsL (s :: ss) = allFolderPaths s ++ allFolderPathsL ss from rfl]
    have h1 := hpt s (List.mem_cons_self s ss)
    have h2 := ih (fun u hu => hpt u (List.mem_cons_of_mem s hu))
    simp only [List.mem_append, h1, h2]
    tauto

theorem mem_files_addFolderUnder {α} (pp x : String) (n : FolderNode α) :
    ∀ t : FolderNode α, x ∈ allFilePaths (addFolderUnder pp n t) ↔
      x ∈ allFilePaths t ∨ (pp ∈ allFolderPaths t ∧ x ∈ allFilePaths n) := by
  refine FolderNode.strongInduction ?_
  intro p fs subs e IH
  by_cases hp : p = pp
  · subst hp
    rw [show addFolderUnder p n (.mk p fs subs e) = .mk p fs (subs ++ [n]) e by
      unfold addFolderUnder; simp]
    rw [allFilePaths_def, allFilePaths_def, allFilePathsL_append, allFolderPaths_def]
    rw [show allFilePathsL [n] = allFilePaths n ++ allFilePathsL [] from rfl]
    rw [show allFilePathsL ([] : List (FolderNode α)) = [] from rfl]
    simp only [List.append_nil, List.mem_cons, List.mem_append]
    tauto
  · rw [show addFolderUnder pp n (.mk p fs subs e)
        = .mk p fs (addFolderUnderL pp n subs) e by
      unfold addFolderUnder; simp [hp]]
    rw [allFilePaths_def, allFilePaths_def, allFolderPaths_def]
    have hl := addFolderUnderL_files_aux IH
    simp only [List.mem_append, List.mem_cons, hl]
    constructor
    · rintro (h | h | h)
      · exact Or.inl (Or.inl h)
      · exact Or.inl (Or.inr h)
      · exact Or.inr ⟨Or.inr h.1, h.2⟩
    · rintro ((h | h) | h)
      · exact Or.inl h
      · exact Or.inr (Or.inl h)
      · rcases h.1 with h1 | h1
        · exact absurd h1.symm hp
        · exact Or.inr (Or.inr ⟨h1, h.2⟩)

theorem addFolderUnderL_id_aux {α} {pp : String} {n : FolderNode α}
    {l : List (FolderNode α)}
    (hpt : ∀ s ∈ l, pp ∉ allFolderPaths s → addFolderUnder pp n s = s)
    (hout : pp ∉ allFolderPathsL l) :
    addFolderUnderL pp n l = l := by
  induction l with
  | nil => rfl
  | cons s ss ih =>
    rw [show allFolderPathsL (s :: ss) = allFolderPaths s ++ allFolderPathsL ss from rfl]
      at hout
    simp only [List.mem_append] at hout
    push_neg at hout
    rw [show addFolderUnderL pp n (s :: ss)
        = addFolderUnder pp n s :: addFolderUnderL pp n ss from rfl]
    rw [hpt s (List.mem_cons_self s ss) hout.1,
      ih (fun u hu => hpt u (List.mem_cons_of_mem s hu)) hout.2]

theorem addFolderUnder_id {α} (pp : String) (n : FolderNode α) :
    ∀ t : FolderNode α, pp ∉ allFolderPaths t → addFolderUnder pp n t = t := by
  refine FolderNode.strongInduction ?_
  intro p fs subs e IH hout
  rw [allFolderPaths_def] at hout
  simp only [List.mem_cons] at hout
  push_neg at hout
  have hp : p ≠ pp := fun hh => hout.1 hh.symm
  rw [show addFolderUnder pp n (.mk p fs subs e)
      = .mk p fs (addFolderUnderL pp n subs) e by
    unfold addFolderUnder; simp [hp]]
  rw [addFolderUnderL_id_aux IH hout.2]

theorem addFileUnderL_folderPaths_aux {α} {pp : String} {f : FileNode α}
    {l : List (FolderNode α)}
    (hpt : ∀ s ∈ l, allFolderPaths (addFileUnder pp f s) = allFolderPaths s) :
    allFolderPathsL (addFileUnderL pp f l) = allFolderPathsL l := by
  induction l with
  | nil => rfl
  | cons s ss ih =>
    rw [show addFileUnderL pp f (s :: ss)
        = addFileUnder pp f s :: addFileUnderL pp f ss from rfl]
    rw [show allFolderPathsL (addFileUnder pp f s :: addFileUnderL pp f ss)
        = allFolderPaths (addFileUnder pp f s) ++ allFolderPathsL (addFileUnderL pp f ss) from rfl]
    rw [show allFolderPathsL (s :: ss) = allFolderPaths s ++ allFolderPathsL ss from rfl]
    rw [hpt s (List.mem_cons_self s ss), ih (fun u hu => hpt u (List.mem_cons_of_mem s hu))]

theorem folderPaths_addFileUnder {α} (pp : String) (f : FileNode α) :
    ∀ t : FolderNode α, allFolderPaths (addFileUnder pp f t) = allFolderPaths t := by
  refine FolderNode.strongInduction ?_
  intro p fs subs e IH
  by_cases hp : p = pp
  · subst hp
    rw [show addFileUnder p f (.mk p fs subs e) = .mk p (fs ++ [f]) subs e by
      unfold addFileUnder; simp]
    rw [allFolderPaths_def, allFolderPaths_def]
  · rw [show addFileUnder pp f (.mk p fs subs e)
        = .mk p fs (addFileUnderL pp f subs) e by
      unfold addFileUnder; simp [hp]]
    rw [allFolderPaths_def, allFolderPaths_def, addFileUnderL_folderPaths_aux IH]

theorem addFileUnderL_files_aux {α} {pp x : String} {f : FileNode α}
    {l : List (FolderNode α)}
    (hpt : ∀ s ∈ l, x ∈ allFilePaths (addFileUnder pp f s) ↔
      x ∈ allFilePaths s ∨ (pp ∈ allFolderPaths s ∧ x = f.path)) :
    x ∈ allFilePathsL (addFileUnderL pp f l) ↔
      x ∈ allFilePathsL l ∨ (pp ∈ allFolderPathsL l ∧ x = f.path) := by
  induction l with
  | nil => simp [addFileUnderL, allFilePathsL, allFolderPathsL]
  | cons s ss ih =>
    rw [show addFileUnderL pp f (s :: ss)
        = addFileUnder pp f s :: addFileUnderL pp f ss from rfl]
    rw [show allFilePathsL (addFileUnder pp f s :: addFileUnderL pp f ss)
        = allFilePaths (addFileUnder pp f s) ++ allFilePathsL (addFileUnderL pp f ss) from rfl]
    rw [show allFilePathsL (s :: ss) = allFilePaths s ++ allFilePathsL ss from rfl]
    rw [show allFolderPathsL (s :: ss) = allFolderPaths s ++ allFolderPathsL ss from rfl]
    have h1 := hpt s (List.mem_cons_self s ss)
    have h2 := ih (fun u hu => hpt u (List.mem_cons_of_mem s hu))
    simp only [List.mem_append, h1, h2]
    tauto

theorem mem_files_addFileUnder {α} (pp x : String) (f : FileNode α) :
    ∀ t : FolderNode α, x ∈ allFilePaths (addFileUnder pp f t) ↔
      x ∈ allFilePaths t ∨ (pp ∈ allFolderPaths t ∧ x = f.path) := by
  refine FolderNode.strongInduction ?_
  intro p fs subs e IH
  by_cases hp : p = pp
  · subst hp
    rw [show addFileUnder p f (.mk p fs subs e) = .mk p (fs ++ [f]) subs e by
      unfold addFileUnder; simp]
    rw [allFilePaths_def, allFilePaths_def, allFolderPaths_def, List.map_append]
    simp only [List.mem_append, List.mem_cons, List.map_cons, List.map_nil,
      List.mem_singleton]
    tauto
  · rw [show addFileUnder pp f (.mk p fs subs e)
        = .mk p fs (addFileUnderL pp f subs) e by
      unfold addFileUnder; simp [hp]]
    rw [allFilePaths_def, allFilePaths_def, allFolderPaths_def]
    have hl := addFileUnderL_files_aux IH
    simp only [List.mem_append, List.mem_cons, hl]
    constructor
    · rintro (h | h | h)
      · exact Or.inl (Or.inl h)
      · exact Or.inl (Or.inr h)
      · exact Or.inr ⟨Or.inr h.1, h.2⟩
    · rintro ((h | h) | h)
      · exact Or.inl h
      · exact Or.inr (Or.inl h)
      · rcases h.1 with h1 | h1
        · exact absurd h1.symm hp
        · exact Or.inr (Or.inr ⟨h1, h.2⟩)

theorem addFolderUnderL_nodup_aux {α} {pp : String} {n : FolderNode α}
    {l : List (FolderNode α)}
    (hpt : ∀ s ∈ l, (allFolderPaths s).Nodup →
      (∀ x ∈ allFolderPaths n, x ∉ allFolderPaths s) →
      (allFolderPaths (addFolderUnder pp n s)).Nodup)
    (hnd : (allFolderPathsL l).Nodup)
    (hdisj : ∀ x ∈ allFolderPaths n, x ∉ allFolderPathsL l) :
    (allFolderPathsL (addFolderUnderL pp n l)).Nodup := by
  induction l with
  | nil =>
    rw [show addFolderUnderL pp n ([] : List (FolderNode α)) = [] from rfl]
    exact hnd
  | cons s ss ih =>
    rw [show allFolderPathsL (s :: ss) = allFolderPaths s ++ allFolderPathsL ss from rfl]
      at hnd hdisj
    obtain ⟨nd1, nd2, disj⟩ := List.nodup_append.mp hnd
    have hdisj1 : ∀ x ∈ allFolderPaths n, x ∉ allFolderPaths s := by
      intro x hx hmem
      exact hdisj x hx (List.mem_append.mpr (Or.inl hmem))
    have hdisj2 : ∀ x ∈ allFolderPaths n, x ∉ allFolderPathsL ss := by
      intro x hx hmem
      exact hdisj x hx (List.mem_append.mpr (Or.inr hmem))
    rw [show addFolderUnderL pp n (s :: ss)
        = addFolderUnder pp n s :: addFolderUnderL pp n ss from rfl]
    rw [show allFolderPathsL (addFolderUnder pp n s :: addFolderUnderL pp n ss)
        = allFolderPaths (addFolderUnder pp n s)
          ++ allFolderPathsL (addFolderUnderL pp n ss) from rfl]
    by_cases hin : pp ∈ allFolderPaths s
    · have hppss : pp ∉ allFolderPathsL ss := fun hmem => disj hin hmem
      rw [addFolderUnderL_id_aux (fun u _ => addFolderUnder_id pp n u) hppss]
      refine List.nodup_append.mpr ⟨hpt s (List.mem_cons_self s ss) nd1 hdisj1, nd2, ?_⟩
      intro x hx
      rcases (mem_paths_addFolderUnder pp x n s).mp hx with h | h
      · exact disj h
      · exact hdisj2 x h.2
    · rw [addFolderUnder_id pp n s hin]
      refine List.nodup_append.mpr
        ⟨nd1, ih (fun u hu => hpt u (List.mem_cons_of_mem s hu)) nd2 hdisj2, ?_⟩
      intro x hx hmem
      have := @addFolderUnderL_paths_aux _ pp x n ss
        (fun u hu => mem_paths_addFolderUnder pp x n u)
      rcases this.mp hmem with h | h
      · exact disj hx h
      · exact hdisj1 x h.2 hx

theorem nodup_paths_addFolderUnder {α} (pp : String) (n : FolderNode α) :
    ∀ t : FolderNode α, (allFolderPaths t).Nodup → (allFolderPaths n).Nodup →
      (∀ x ∈ allFolderPaths n, x ∉ allFolderPaths t) →
      (allFolderPaths (addFolderUnder pp n t)).Nodup := by
  refine FolderNode.strongInduction ?_
  intro p fs subs e IH hnd hn hdisj
  rw [allFolderPaths_def] at hnd hdisj
  have hpl : p ∉ allFolderPathsL subs := (List.nodup_cons.mp hnd).1
  have hndl : (allFolderPathsL subs).Nodup := (List.nodup_cons.mp hnd).2
  have hpn : p ∉ allFolderPaths n := fun hmem =>
    hdisj p hmem (List.mem_cons_self _ _)
  have hdisjl : ∀ x ∈ allFolderPaths n, x ∉ allFolderPathsL subs := by
    intro x hx hmem
    exact hdisj x hx (List.mem_cons_of_mem _ hmem)
  by_cases hp : p = pp
  · subst hp
    rw [show addFolderUnder p n (.mk p fs subs e) = .mk p fs (subs ++ [n]) e by
      unfold addFolderUnder; simp]
    rw [allFolderPaths_def, allFolderPathsL_append]
    rw [show allFolderPathsL [n] = allFolderPaths n ++ allFolderPathsL [] from rfl]
    rw [show allFolderPathsL ([] : List (FolderNode α)) = [] from rfl, List.append_nil]
    refine List.nodup_cons.mpr ⟨?_, List.nodup_append.mpr ⟨hndl, hn, ?_⟩⟩
    · intro hmem
      rcases List.mem_append.mp hmem with h | h
      · exact hpl h
      · exact hpn h
    · intro x hx hmem
      exact hdisjl x hmem hx
  · rw [show addFolderUnder pp n (.mk p fs subs e)
        = .mk p fs (addFolderUnderL pp n subs) e by
      unfold addFolderUnder; simp [hp]]
    rw [allFolderPaths_def]
    refine List.nodup_cons.mpr ⟨?_, ?_⟩
    · intro hmem
      have := @addFolderUnderL_paths_aux _ pp p n subs
        (fun u hu => mem_paths_addFolderUnder pp p n u)
      rcases this.mp hmem with h | h
      · exact hpl h
      · exact hpn h.2
    · exact addFolderUnderL_nodup_aux
        (fun u _ ndu hdu => IH u (by assumption) ndu hn hdu) hndl hdisjl

/-! ### Ancestor chains -/

theorem allFolderPaths_leaf {α} (fp : String) :
    allFolderPaths (FolderNode.mk fp ([] : List (FileNode α)) [] none) = [fp] := rfl

theorem chainOf_segless (rt : String) (hrt : canonRoot rt) :
    ∀ a ∈ chainOf (PPath.str ⟨rt, []⟩), a = PPath.str ⟨rt, []⟩ := by
  rcases hrt with rfl | rfl | rfl
  · intro a ha
    rw [show PPath.str ⟨"", []⟩ = "." from rfl] at ha ⊢
    rw [show chainOf "." = [] from by decide] at ha
    exact absurd ha (List.not_mem_nil a)
  · intro a ha
    rw [show PPath.str ⟨"/", []⟩ = "/" from rfl] at ha ⊢
    rw [show chainOf "/" = ["/"] from by decide] at ha
    simpa using ha
  · intro a ha
    rw [show PPath.str ⟨"//", []⟩ = "//" from rfl] at ha ⊢
    rw [show chainOf "//" = ["//"] from by decide] at ha
    simpa using ha

theorem str_ne_empty_dot {rt : String} {ps : List String} (hrt : canonRoot rt)
    (hps : ∀ t ∈ ps, GoodSeg t) (hne : ps ≠ []) :
    PPath.str ⟨rt, ps⟩ ≠ "" ∧ PPath.str ⟨rt, ps⟩ ≠ "." := by
  constructor
  · intro h
    have := parsePath_str_roundtrip rt ps hrt hps
    rw [h] at this
    have hparts : parseParts "" = [] := by decide
    have : ps = [] := by
      have h2 := congrArg PPath.parts this
      simp only [parsePath] at h2
      rw [hparts] at h2
      exact h2.symm
    exact hne this
  · intro h
    have := parsePath_str_roundtrip rt ps hrt hps
    rw [h] at this
    have hparts : parseParts "." = [] := by decide
    have : ps = [] := by
      have h2 := congrArg PPath.parts this
      simp only [parsePath] at h2
      rw [hparts] at h2
      exact h2.symm
    exact hne this

theorem chainOf_cons (rt : String) (ps : List String) (hrt : canonRoot rt)
    (hps : ∀ t ∈ ps, GoodSeg t) (hne : ps ≠ []) :
    chainOf (PPath.str ⟨rt, ps⟩)
      = PPath.str ⟨rt, ps⟩ :: chainOf (PPath.str ⟨rt, ps.dropLast⟩) := by
  have hdl : ∀ t ∈ ps.dropLast, GoodSeg t := fun t ht =>
    hps t (List.dropLast_sublist ps |>.mem ht)
  have hrt1 := parsePath_str_roundtrip rt ps hrt hps
  have hrt2 := parsePath_str_roundtrip rt ps.dropLast hrt hdl
  obtain ⟨r, rs, hrev⟩ := List.exists_cons_of_ne_nil
    (mt List.reverse_eq_nil_iff.mp hne)
  unfold chainOf
  rw [hrt1, hrt2, hrev]
  have hps2 : ps.dropLast.reverse = rs := by
    have hps3 : ps = rs.reverse ++ [r] := by
      have hh := congrArg List.reverse hrev
      simpa using hh
    rw [hps3, List.dropLast_concat, List.reverse_reverse]
  rw [hps2]
  have hrr : (r :: rs).reverse = ps := by rw [← hrev, List.reverse_reverse]
  rw [show ancStrs rt (r :: rs)
      = if PPath.str ⟨rt, (r :: rs).reverse⟩ = "" ∨ PPath.str ⟨rt, (r :: rs).reverse⟩ = "."
        then [] else PPath.str ⟨rt, (r :: rs).reverse⟩ :: ancStrs rt rs from rfl]
  rw [hrr]
  obtain ⟨hne1, hne2⟩ := str_ne_empty_dot hrt hps hne
  rw [if_neg (by simp [hne1, hne2])]

theorem str_parts_inj {rt : String} {ps qs : List String} (hrt : canonRoot rt)
    (hps : ∀ t ∈ ps, GoodSeg t) (hqs : ∀ t ∈ qs, GoodSeg t)
    (h : PPath.str ⟨rt, ps⟩ = PPath.str ⟨rt, qs⟩) : ps = qs := by
  have h1 := parsePath_str_roundtrip rt ps hrt hps
  have h2 := parsePath_str_roundtrip rt qs hrt hqs
  rw [h, h2] at h1
  exact (congrArg PPath.parts h1).symm

theorem reverse_cons_dropLast (r : String) (rs : List String) :
    (r :: rs).reverse.dropLast = rs.reverse := by
  rw [List.reverse_cons, List.dropLast_concat]

theorem gocAux_nil_eq {α} (rt : String) (t : FolderNode α) :
    gocAux rt [] t
      = if containsFolder t (PPath.str ⟨rt, []⟩) then t
        else addFolderUnder "" (.mk (PPath.str ⟨rt, []⟩) [] [] none) t := rfl

theorem gocAux_cons_eq {α} (rt r : String) (rs : List String) (t : FolderNode α) :
    gocAux rt (r :: rs) t
      = if containsFolder t (PPath.str ⟨rt, (r :: rs).reverse⟩) then t
        else addFolderUnder (PPath.str ⟨rt, rs.reverse⟩)
          (.mk (PPath.str ⟨rt, (r :: rs).reverse⟩) [] [] none) (gocAux rt rs t) := rfl

theorem gocAux_path {α} (rt : String) (rs : List String) (t : FolderNode α) :
    (gocAux rt rs t).path = t.path := by
  induction rs with
  | nil =>
    rw [gocAux_nil_eq]
    split
    · rfl
    · exact addFolderUnder_path _ _ _
  | cons r rs ih =>
    rw [gocAux_cons_eq]
    split
    · rfl
    · rw [addFolderUnder_path]
      exact ih

theorem gocAux_mono_paths {α} {x : String} (rt : String) (rs : List String)
    (t : FolderNode α) (hx : x ∈ allFolderPaths t) :
    x ∈ allFolderPaths (gocAux rt rs t) := by
  induction rs with
  | nil =>
    rw [gocAux_nil_eq]
    split
    · exact hx
    · exact (mem_paths_addFolderUnder _ _ _ _).mpr (Or.inl hx)
  | cons r rs ih =>
    rw [gocAux_cons_eq]
    split
    · exact hx
    · exact (mem_paths_addFolderUnder _ _ _ _).mpr (Or.inl ih)

theorem allFilePathsL_nil {α} : allFilePathsL ([] : List (FolderNode α)) = [] := rfl

theorem allFilePaths_leaf {α} (fp : String) :
    allFilePaths (FolderNode.mk fp ([] : List (FileNode α)) [] none) = [] := rfl

theorem gocAux_files {α} {x : String} (rt : String) (rs : List String)
    (t : FolderNode α) :
    x ∈ allFilePaths (gocAux rt rs t) ↔ x ∈ allFilePaths t := by
  induction rs with
  | nil =>
    rw [gocAux_nil_eq]
    split
    · exact Iff.rfl
    · rw [mem_files_addFolderUnder]
      simp [allFilePaths_leaf]
  | cons r rs ih =>
    rw [gocAux_cons_eq]
    split
    · exact Iff.rfl
    · rw [mem_files_addFolderUnder]
      simp [allFilePaths_leaf, ih]

theorem gocAux_target {α} (rt : String) (rs : List String) (t : FolderNode α)
    (hroot : t.path = "") :
    PPath.str ⟨rt, rs.reverse⟩ ∈ allFolderPaths (gocAux rt rs t) := by
  induction rs with
  | nil =>
    rw [gocAux_nil_eq]
    split
    · next hcond => exact (containsFolder_iff t _).mp hcond
    · refine (mem_paths_addFolderUnder _ _ _ _).mpr (Or.inr ⟨?_, ?_⟩)
      · rw [← hroot]
        exact path_mem_allFolderPaths t
      · rw [allFolderPaths_leaf]
        exact List.mem_singleton.mpr rfl
  | cons r rs ih =>
    rw [gocAux_cons_eq]
    split
    · next hcond => exact (containsFolder_iff t _).mp hcond
    · refine (mem_paths_addFolderUnder _ _ _ _).mpr (Or.inr ⟨ih, ?_⟩)
      rw [allFolderPaths_leaf]
      exact List.mem_singleton.mpr rfl

theorem gocAux_new {α} {x : String} (rt : String) (rs : List String)
    (t : FolderNode α) (hx : x ∈ allFolderPaths (gocAux rt rs t)) :
    x ∈ allFolderPaths t ∨ ∃ j, x = PPath.str ⟨rt, (rs.drop j).reverse⟩ := by
  induction rs with
  | nil =>
    rw [gocAux_nil_eq] at hx
    split at hx
    · exact Or.inl hx
    · rcases (mem_paths_addFolderUnder _ _ _ _).mp hx with h | h
      · exact Or.inl h
      · rw [allFolderPaths_leaf] at h
        exact Or.inr ⟨0, List.mem_singleton.mp h.2⟩
  | cons r rs ih =>
    rw [gocAux_cons_eq] at hx
    split at hx
    · exact Or.inl hx
    · rcases (mem_paths_addFolderUnder _ _ _ _).mp hx with h | h
      · rcases ih h with h2 | ⟨j, hj⟩
        · exact Or.inl h2
        · exact Or.inr ⟨j + 1, by rw [hj]; rfl⟩
      · rw [allFolderPaths_leaf] at h
        exact Or.inr ⟨0, List.mem_singleton.mp h.2⟩

theorem gocAux_fresh {α} (rt : String) (rs : List String) (t : FolderNode α)
    {qs : List String} (hrt : canonRoot rt) (hgs : ∀ u ∈ rs, GoodSeg u)
    (hqs : ∀ u ∈ qs, GoodSeg u) (hlen : rs.length < qs.length)
    (hout : PPath.str ⟨rt, qs.reverse⟩ ∉ allFolderPaths t) :
    PPath.str ⟨rt, qs.reverse⟩ ∉ allFolderPaths (gocAux rt rs t) := by
  intro hmem
  rcases gocAux_new rt rs t hmem with h | ⟨j, hj⟩
  · exact hout h
  · have hrev : ∀ u ∈ qs.reverse, GoodSeg u := fun u hu =>
      hqs u (List.mem_reverse.mp hu)
    have hdrop : ∀ u ∈ (rs.drop j).reverse, GoodSeg u := fun u hu =>
      hgs u (List.drop_subset j rs (List.mem_reverse.mp hu))
    have := str_parts_inj hrt hrev hdrop hj
    have hlq : qs.reverse.length = qs.length := List.length_reverse qs
    have hld : ((rs.drop j).reverse).length ≤ rs.length := by
      rw [List.length_reverse, List.length_drop]
      omega
    rw [this] at hlq
    omega

theorem gocAux_nodup {α} (rt : String) (rs : List String) (t : FolderNode α)
    (hrt : canonRoot rt) (hgs : ∀ u ∈ rs, GoodSeg u)
    (hnd : (allFolderPaths t).Nodup) :
    (allFolderPaths (gocAux rt rs t)).Nodup := by
  induction rs with
  | nil =>
    rw [gocAux_nil_eq]
    split
    · exact hnd
    · next hcond =>
      refine nodup_paths_addFolderUnder _ _ _ hnd ?_ ?_
      · rw [allFolderPaths_leaf]
        exact List.nodup_singleton _
      · intro x hx
        rw [allFolderPaths_leaf] at hx
        rw [List.mem_singleton.mp hx]
        intro hmem
        exact hcond ((containsFolder_iff t _).mpr hmem)
  | cons r rs ih =>
    rw [gocAux_cons_eq]
    split
    · exact hnd
    · next hcond =>
      have hnd2 := ih (fun u hu => hgs u (List.mem_cons_of_mem r hu))
      refine nodup_paths_addFolderUnder _ _ _ hnd2 ?_ ?_
      · rw [allFolderPaths_leaf]
        exact List.nodup_singleton _
      · intro x hx
        rw [allFolderPaths_leaf] at hx
        rw [List.mem_singleton.mp hx]
        have hqs : ∀ u ∈ r :: rs, GoodSeg u := hgs
        have : (r :: rs).reverse = (r :: rs).reverse := rfl
        refine gocAux_fresh rt rs t hrt
          (fun u hu => hgs u (List.mem_cons_of_mem r hu)) hqs (by simp) ?_
        intro hmem
        exact hcond ((containsFolder_iff t _).mpr hmem)

theorem gocAux_anc {α} (rt : String) (rs : List String) (t : FolderNode α)
    (hrt : canonRoot rt) (hgs : ∀ u ∈ rs, GoodSeg u)
    (hroot : t.path = "") (hac : AncClosed t) :
    AncClosed (gocAux rt rs t) := by
  induction rs with
  | nil =>
    rw [gocAux_nil_eq]
    split
    · exact hac
    · intro x hx a ha
      rcases (mem_paths_addFolderUnder _ _ _ _).mp hx with h | h
      · exact (mem_paths_addFolderUnder _ _ _ _).mpr (Or.inl (hac x h a ha))
      · rw [allFolderPaths_leaf] at h
        rw [List.mem_singleton.mp h.2] at ha
        rw [chainOf_segless rt hrt a ha]
        exact (mem_paths_addFolderUnder _ _ _ _).mpr
          (Or.inr ⟨h.1, by rw [allFolderPaths_leaf]; exact List.mem_singleton.mpr rfl⟩)
  | cons r rs ih =>
    rw [gocAux_cons_eq]
    split
    · exact hac
    · have hac2 := ih (fun u hu => hgs u (List.mem_cons_of_mem r hu))
      have htarget := gocAux_target rt rs t hroot
      intro x hx a ha
      rcases (mem_paths_addFolderUnder _ _ _ _).mp hx with h | h
      · exact (mem_paths_addFolderUnder _ _ _ _).mpr (Or.inl (hac2 x h a ha))
      · rw [allFolderPaths_leaf] at h
        rw [List.mem_singleton.mp h.2] at ha
        have hrevgs : ∀ u ∈ (r :: rs).reverse, GoodSeg u := fun u hu =>
          hgs u (List.mem_reverse.mp hu)
        rw [chainOf_cons rt ((r :: rs).reverse) hrt hrevgs (by simp),
          reverse_cons_dropLast] at ha
        rcases List.mem_cons.mp ha with rfl | ha2
        · exact (mem_paths_addFolderUnder _ _ _ _).mpr
            (Or.inr ⟨h.1, by rw [allFolderPaths_leaf]; exact List.mem_singleton.mpr rfl⟩)
        · exact (mem_paths_addFolderUnder _ _ _ _).mpr
            (Or.inl (hac2 _ htarget a ha2))

/-! ### getOrCreateFolder lemmas -/

theorem getOrCreate_path {α} (t : FolderNode α) (fp : String) :
    (getOrCreateFolder t fp).path = t.path := by
  unfold getOrCreateFolder
  split
  · rfl
  · split
    · exact addFolderUnder_path _ _ _
    · rw [addFolderUnder_path, gocAux_path]

theorem getOrCreate_mono_paths {α} {x : String} (t : FolderNode α) (fp : String)
    (hx : x ∈ allFolderPaths t) : x ∈ allFolderPaths (getOrCreateFolder t fp) := by
  unfold getOrCreateFolder
  split
  · exact hx
  · split
    · exact (mem_paths_addFolderUnder _ _ _ _).mpr (Or.inl hx)
    · exact (mem_paths_addFolderUnder _ _ _ _).mpr
        (Or.inl (gocAux_mono_paths _ _ _ hx))

theorem getOrCreate_files {α} {x : String} (t : FolderNode α) (fp : String) :
    x ∈ allFilePaths (getOrCreateFolder t fp) ↔ x ∈ allFilePaths t := by
  unfold getOrCreateFolder
  split
  · exact Iff.rfl
  · split
    · rw [mem_files_addFolderUnder]
      simp [allFilePaths_leaf]
    · rw [mem_files_addFolderUnder]
      simp [allFilePaths_leaf, gocAux_files]

theorem getOrCreate_present {α} (t : FolderNode α) (fp : String)
    (hroot : t.path = "") : fp ∈ allFolderPaths (getOrCreateFolder t fp) := by
  unfold getOrCreateFolder
  split
  · next hcond => exact (containsFolder_iff t fp).mp hcond
  · split
    · refine (mem_paths_addFolderUnder _ _ _ _).mpr (Or.inr ⟨?_, ?_⟩)
      · rw [← hroot]
        exact path_mem_allFolderPaths t
      · rw [allFolderPaths_leaf]
        exact List.mem_singleton.mpr rfl
    · refine (mem_paths_addFolderUnder _ _ _ _).mpr (Or.inr ⟨?_, ?_⟩)
      · exact gocAux_target _ _ _ hroot
      · rw [allFolderPaths_leaf]
        exact List.mem_singleton.mpr rfl

theorem parts_reverse_goodsegs {fp : String} {r : String} {rs : List String}
    (hrev : (parsePath fp).parts.reverse = r :: rs) :
    (∀ u ∈ r :: rs, GoodSeg u) ∧ (parsePath fp).parts = (r :: rs).reverse := by
  constructor
  · intro u hu
    have : u ∈ (parsePath fp).parts.reverse := by rw [hrev]; exact hu
    exact parseParts_good fp u (List.mem_reverse.mp this)
  · rw [← hrev, List.reverse_reverse]

theorem parsePath_empty_parts : (parsePath "").parts = [] := by decide

theorem getOrCreate_nodup {α} (t : FolderNode α) (fp : String)
    (hfp : fp = "" ∨ fp = PPath.str (parsePath fp))
    (hnd : (allFolderPaths t).Nodup) :
    (allFolderPaths (getOrCreateFolder t fp)).Nodup := by
  unfold getOrCreateFolder
  split
  · exact hnd
  · next hcond =>
    split
    · refine nodup_paths_addFolderUnder _ _ _ hnd ?_ ?_
      · rw [allFolderPaths_leaf]
        exact List.nodup_singleton _
      · intro x hx
        rw [allFolderPaths_leaf] at hx
        rw [List.mem_singleton.mp hx]
        intro hmem
        exact hcond ((containsFolder_iff t fp).mpr hmem)
    · next r rs hrev =>
      obtain ⟨hgs, hparts⟩ := parts_reverse_goodsegs hrev
      have hrt := rootOf_canon fp
      have hfp2 : fp = PPath.str ⟨(parsePath fp).root, (r :: rs).reverse⟩ := by
        rcases hfp with rfl | hfp3
        · rw [parsePath_empty_parts] at hparts
          exact absurd hparts.symm (by simp)
        · rw [← hparts]
          exact hfp3
      have hnd2 := gocAux_nodup (parsePath fp).root rs t hrt
        (fun u hu => hgs u (List.mem_cons_of_mem r hu)) hnd
      refine nodup_paths_addFolderUnder _ _ _ hnd2 ?_ ?_
      · rw [allFolderPaths_leaf]
        exact List.nodup_singleton _
      · intro x hx
        rw [allFolderPaths_leaf] at hx
        rw [List.mem_singleton.mp hx]
        have hout : PPath.str ⟨(parsePath fp).root, (r :: rs).reverse⟩
            ∉ allFolderPaths t := by
          rw [← hfp2]
          intro hmem2
          exact hcond ((containsFolder_iff t fp).mpr hmem2)
        have hfresh := gocAux_fresh (parsePath fp).root rs t hrt
          (fun u hu => hgs u (List.mem_cons_of_mem r hu)) hgs (by simp) hout
        rw [← hfp2] at hfresh
        exact hfresh

theorem getOrCreate_anc {α} (t : FolderNode α) (fp : String)
    (hfp : fp = "" ∨ fp = PPath.str (parsePath fp))
    (hroot : t.path = "") (hac : AncClosed t) :
    AncClosed (getOrCreateFolder t fp) := by
  unfold getOrCreateFolder
  split
  · exact hac
  · next hcond =>
    split
    · next hrev =>
      have hpp : (parsePath fp).parts = [] := by
        have hh := congrArg List.reverse hrev
        simpa using hh
      have hfp2 : fp = PPath.str ⟨(parsePath fp).root, []⟩ := by
        rcases hfp with rfl | hfp3
        · exact absurd ((containsFolder_iff t "").mpr
            (by rw [← hroot]; exact path_mem_allFolderPaths t)) hcond
        · rw [← hpp]
          exact hfp3
      have hchain : ∀ b ∈ chainOf fp, b = fp := by
        have hcs := chainOf_segless (parsePath fp).root (rootOf_canon fp)
        rw [← hfp2] at hcs
        exact hcs
      intro x hx a ha
      rcases (mem_paths_addFolderUnder _ _ _ _).mp hx with h | h
      · exact (mem_paths_addFolderUnder _ _ _ _).mpr (Or.inl (hac x h a ha))
      · rw [allFolderPaths_leaf] at h
        rw [List.mem_singleton.mp h.2] at ha
        rw [hchain a ha]
        exact (mem_paths_addFolderUnder _ _ _ _).mpr
          (Or.inr ⟨h.1, by rw [allFolderPaths_leaf]; exact List.mem_singleton.mpr rfl⟩)
    · next r rs hrev =>
      obtain ⟨hgs, hparts⟩ := parts_reverse_goodsegs hrev
      have hrt := rootOf_canon fp
      have hfp2 : fp = PPath.str ⟨(parsePath fp).root, (r :: rs).reverse⟩ := by
        rcases hfp with rfl | hfp3
        · rw [parsePath_empty_parts] at hparts
          exact absurd hparts.symm (by simp)
        · rw [← hparts]
          exact hfp3
      have hac2 := gocAux_anc (parsePath fp).root rs t hrt
        (fun u hu => hgs u (List.mem_cons_of_mem r hu)) hroot hac
      have htarget := gocAux_target (parsePath fp).root rs t hroot
      have hrevgs : ∀ u ∈ (r :: rs).reverse, GoodSeg u := fun u hu =>
        hgs u (List.mem_reverse.mp hu)
      have hcc := chainOf_cons (parsePath fp).root ((r :: rs).reverse) hrt hrevgs
        (by simp)
      rw [reverse_cons_dropLast] at hcc
      rw [← hfp2] at hcc
      intro x hx a ha
      rcases (mem_paths_addFolderUnder _ _ _ _).mp hx with h | h
      · exact (mem_paths_addFolderUnder _ _ _ _).mpr (Or.inl (hac2 x h a ha))
      · rw [allFolderPaths_leaf] at h
        rw [List.mem_singleton.mp h.2] at ha
        rw [hcc] at ha
        rcases List.mem_cons.mp ha with rfl | ha2
        · exact (mem_paths_addFolderUnder _ _ _ _).mpr
            (Or.inr ⟨htarget, by rw [allFolderPaths_leaf]; exact List.mem_singleton.mpr rfl⟩)
        · exact (mem_paths_addFolderUnder _ _ _ _).mpr
            (Or.inl (hac2 _ htarget a ha2))

/-! ### build_tree invariants -/

theorem buildStep_eq {α} (t : FolderNode α) (pv : String × α) :
    buildStep t pv = addFileUnder (parentPathOf pv.1) ⟨pv.1, some pv.2⟩
      (getOrCreateFolder t (parentPathOf pv.1)) := rfl

theorem parent_root (p : PPath) : p.parent.root = p.root := by
  unfold PPath.parent
  split <;> rfl

theorem parent_goodsegs (v : String) :
    ∀ u ∈ (parsePath v).parent.parts, GoodSeg u := by
  intro u hu
  unfold PPath.parent at hu
  split at hu
  · exact parseParts_good v u hu
  · exact parseParts_good v u (List.dropLast_sublist _ |>.mem hu)

theorem parsePath_parent_roundtrip (v : String) :
    parsePath (PPath.str (parsePath v).parent) = (parsePath v).parent := by
  have h := parsePath_str_roundtrip (parsePath v).parent.root
    (parsePath v).parent.parts
    (by rw [parent_root]; exact rootOf_canon v) (parent_goodsegs v)
  exact h

theorem parentPathOf_norm (v : String) :
    parentPathOf v = "" ∨ parentPathOf v = PPath.str (parsePath (parentPathOf v)) := by
  unfold parentPathOf
  split
  · right
    rw [parsePath_parent_roundtrip]
  · left
    rfl

theorem ancStrs_nil_empty : ancStrs "" [] = [] := by decide

theorem get_ancestor_paths_of_dot (v : String)
    (h : PPath.str (parsePath v).parent = ".") : get_ancestor_paths v = [] := by
  have hq := parsePath_parent_roundtrip v
  rw [h] at hq
  have hq2 : (⟨"", []⟩ : PPath) = (parsePath v).parent := by
    rw [← hq]
    decide
  unfold get_ancestor_paths
  rw [← hq2]
  exact ancStrs_nil_empty

theorem get_ancestor_paths_eq_chain (v : String) :
    get_ancestor_paths v = chainOf (PPath.str (parsePath v).parent) := by
  unfold chainOf
  rw [parsePath_parent_roundtrip]
  rfl

theorem buildStep_path {α} (t : FolderNode α) (pv : String × α) :
    (buildStep t pv).path = t.path := by
  rw [buildStep_eq, addFileUnder_path, getOrCreate_path]

theorem buildStep_mono_paths {α} {x : String} (t : FolderNode α) (pv : String × α)
    (hx : x ∈ allFolderPaths t) : x ∈ allFolderPaths (buildStep t pv) := by
  rw [buildStep_eq, folderPaths_addFileUnder]
  exact getOrCreate_mono_paths t _ hx

theorem buildStep_mono_files {α} {x : String} (t : FolderNode α) (pv : String × α)
    (hx : x ∈ allFilePaths t) : x ∈ allFilePaths (buildStep t pv) := by
  rw [buildStep_eq, mem_files_addFileUnder]
  exact Or.inl ((getOrCreate_files t _).mpr hx)

theorem anc_closed_of_paths_eq {α β} {t1 : FolderNode α} {t2 : FolderNode β}
    (h : allFolderPaths t1 = allFolderPaths t2) (hac : AncClosed t2) :
    AncClosed t1 := by
  intro x hx a ha
  rw [h] at hx ⊢
  exact hac x hx a ha

theorem buildStep_inv {α} (t : FolderNode α) (pv : String × α)
    (hinv : TreeInv t) : TreeInv (buildStep t pv) := by
  obtain ⟨hroot, hnd, hac⟩ := hinv
  refine ⟨?_, ?_, ?_⟩
  · rw [buildStep_path, hroot]
  · rw [buildStep_eq, folderPaths_addFileUnder]
    exact getOrCreate_nodup t _ (parentPathOf_norm pv.1) hnd
  · rw [buildStep_eq]
    exact anc_closed_of_paths_eq (folderPaths_addFileUnder _ _ _)
      (getOrCreate_anc t _ (parentPathOf_norm pv.1) hroot hac)

theorem buildStep_file_present {α} (t : FolderNode α) (pv : String × α)
    (hinv : TreeInv t) : pv.1 ∈ allFilePaths (buildStep t pv) := by
  rw [buildStep_eq, mem_files_addFileUnder]
  exact Or.inr ⟨getOrCreate_present t _ hinv.1, rfl⟩

theorem buildStep_anc_present {α} (t : FolderNode α) (pv : String × α)
    (hinv : TreeInv t) :
    ∀ a ∈ get_ancestor_paths pv.1, a ∈ allFolderPaths (buildStep t pv) := by
  intro a ha
  by_cases hdot : PPath.str (parsePath pv.1).parent = "."
  · rw [get_ancestor_paths_of_dot pv.1 hdot] at ha
    exact absurd ha (List.not_mem_nil a)
  · rw [get_ancestor_paths_eq_chain pv.1] at ha
    have hpp : parentPathOf pv.1 = PPath.str (parsePath pv.1).parent := by
      unfold parentPathOf
      rw [if_pos hdot]
    rw [buildStep_eq, folderPaths_addFileUnder]
    have hpres := getOrCreate_present t (parentPathOf pv.1) hinv.1
    have hacg := getOrCreate_anc t (parentPathOf pv.1) (parentPathOf_norm pv.1)
      hinv.1 hinv.2.2
    rw [← hpp] at ha
    exact hacg _ hpres a ha

theorem build_fold {α} (m : List (String × α)) :
    ∀ t : FolderNode α, TreeInv t →
      TreeInv (m.foldl buildStep t) ∧
      (∀ x ∈ allFolderPaths t, x ∈ allFolderPaths (m.foldl buildStep t)) ∧
      (∀ x ∈ allFilePaths t, x ∈ allFilePaths (m.foldl buildStep t)) ∧
      (∀ pv ∈ m, pv.1 ∈ allFilePaths (m.foldl buildStep t) ∧
        ∀ a ∈ get_ancestor_paths pv.1, a ∈ allFolderPaths (m.foldl buildStep t)) := by
  induction m with
  | nil =>
    intro t hinv
    exact ⟨hinv, fun x hx => hx, fun x hx => hx, by simp⟩
  | cons pv m ih =>
    intro t hinv
    rw [show (pv :: m).foldl buildStep t = m.foldl buildStep (buildStep t pv) from rfl]
    have hinv2 := buildStep_inv t pv hinv
    obtain ⟨hi, hmp, hmf, hpv⟩ := ih (buildStep t pv) hinv2
    refine ⟨hi, ?_, ?_, ?_⟩
    · intro x hx
      exact hmp x (buildStep_mono_paths t pv hx)
    · intro x hx
      exact hmf x (buildStep_mono_files t pv hx)
    · intro qv hqv
      rcases List.mem_cons.mp hqv with rfl | hqv2
      · refine ⟨hmf _ (buildStep_file_present t qv hinv), ?_⟩
        intro a ha
        exact hmp a (buildStep_anc_present t qv hinv a ha)
      · exact hpv qv hqv2

theorem rootInv {α} : TreeInv (FolderNode.mk "" ([] : List (FileNode α)) [] none) := by
  refine ⟨rfl, ?_, ?_⟩
  · rw [allFolderPaths_leaf]
    exact List.nodup_singleton _
  · intro x hx a ha
    rw [allFolderPaths_leaf] at hx
    rw [List.mem_singleton.mp hx] at ha
    rw [show chainOf "" = [] from by decide] at ha
    exact absurd ha (List.not_mem_nil a)

/-! ### Claims C1 and C5 -/

/-- Counterexample to claim C1: `build_tree` performs no path validation
at all. On an input that contains an empty path, an absolute path, and a
path with a parent-directory (`..`) segment, it raises no `InvalidPath`
condition; it returns a fully built tree that contains all three files,
with the `..` segment and the absolute prefix materialized as ordinary
folder nodes. -/
theorem claim_C1_counterexample :
    containsFile (build_tree [("", (0:ℕ)), ("/abs/x.md", 0), ("a/../b.md", 0)])
        "" = true ∧
    containsFile (build_tree [("", (0:ℕ)), ("/abs/x.md", 0), ("a/../b.md", 0)])
        "/abs/x.md" = true ∧
    containsFile (build_tree [("", (0:ℕ)), ("/abs/x.md", 0), ("a/../b.md", 0)])
        "a/../b.md" = true ∧
    containsFolder (build_tree [("", (0:ℕ)), ("/abs/x.md", 0), ("a/../b.md", 0)])
        "a/.." = true ∧
    containsFolder (build_tree [("", (0:ℕ)), ("/abs/x.md", 0), ("a/../b.md", 0)])
        "/abs" = true := by
  refine ⟨?_, ?_, ?_, ?_, ?_⟩ <;> decide

/-- Claim C1, amended: `build_tree` never fails and performs no path
validation: for every input mapping — including mappings containing
empty, absolute, or parent-directory (`..`) paths — it returns a fully
built tree in which every input file path is present as a file node. -/
theorem claim_C1_amended {α} (m : List (String × α)) :
    ∀ pv ∈ m, containsFile (build_tree m) pv.1 = true := by
  intro pv hpv
  rw [containsFile_iff]
  exact ((build_fold m _ rootInv).2.2.2 pv hpv).1

/-- Witness for the amended claim C1 at a concrete input. -/
theorem claim_C1_amended_witness :
    containsFile (build_tree [("a/../b.md", (0:ℕ))]) "a/../b.md" = true :=
  claim_C1_amended [("a/../b.md", (0:ℕ))] ("a/../b.md", 0)
    (List.mem_singleton.mpr rfl)

/-- Claim C5: for every input mapping, `build_tree` returns a single root
node with the empty path, every ancestor folder path of every input file
is present as a folder node in (and hence reachable from) the returned
tree, and the folder paths of the tree are pairwise distinct — each
distinct folder path gives rise to exactly one `FolderNode`, whatever
the order of the input entries. -/
theorem claim_C5 {α} (m : List (String × α)) :
    (build_tree m).path = "" ∧
    (∀ pv ∈ m, ∀ a ∈ get_ancestor_paths pv.1,
      containsFolder (build_tree m) a = true) ∧
    (allFolderPaths (build_tree m)).Nodup := by
  obtain ⟨hinv, -, -, hpv⟩ := build_fold m _ (rootInv (α := α))
  refine ⟨hinv.1, ?_, hinv.2.1⟩
  intro pv hm a ha
  rw [containsFolder_iff]
  exact (hpv pv hm).2 a ha

/-- Witness for claim C5 at a concrete input. -/
theorem claim_C5_witness :
    (build_tree [("A/B/c.md", (0:ℕ))]).path = "" ∧
    containsFolder (build_tree [("A/B/c.md", (0:ℕ))]) "A/B" = true ∧
    (allFolderPaths (build_tree [("A/B/c.md", (0:ℕ))])).Nodup := by
  obtain ⟨h1, h2, h3⟩ := claim_C5 [("A/B/c.md", (0:ℕ))]
  exact ⟨h1, h2 ("A/B/c.md", 0) (List.mem_singleton.mpr rfl) "A/B" (by decide), h3⟩

/-! ### Aggregation invariant (claims C3 and C4) -/

theorem mem_allNodesL {α} {u : FolderNode α} {l : List (FolderNode α)} :
    u ∈ allNodesL l ↔ ∃ s ∈ l, u ∈ allNodes s := by
  induction l with
  | nil => simp [allNodesL]
  | cons s ss ih =>
    rw [show allNodesL (s :: ss) = allNodes s ++ allNodesL ss from rfl]
    simp [ih]

theorem self_mem_allNodes {α} (t : FolderNode α) : t ∈ allNodes t := by
  cases t
  rw [show allNodes (.mk _ _ _ _) = .mk _ _ _ _ :: allNodesL _ from rfl]
  exact List.mem_cons_self _ _

theorem folderEmbFree_mk {α} (p : String) (fs : List (FileNode α)) subs e :
    folderEmbFree (FolderNode.mk p fs subs e) = true ↔
      e = none ∧ ∀ s ∈ subs, folderEmbFree s = true := by
  unfold folderEmbFree
  rw [show allNodes (FolderNode.mk p fs subs e)
      = FolderNode.mk p fs subs e :: allNodesL subs from rfl]
  rw [List.all_cons]
  simp only [Bool.and_eq_true, List.all_eq_true]
  constructor
  · rintro ⟨h1, h2⟩
    refine ⟨?_, ?_⟩
    · have : (FolderNode.mk p fs subs e).embedding = e := rfl
      rw [this] at h1
      exact Option.isNone_iff_eq_none.mp h1
    · intro s hs u hu
      exact h2 u (mem_allNodesL.mpr ⟨s, hs, hu⟩)
  · rintro ⟨h1, h2⟩
    refine ⟨?_, ?_⟩
    · have : (FolderNode.mk p fs subs e).embedding = e := rfl
      rw [this, h1]
      rfl
    · intro u hu
      obtain ⟨s, hs, hu2⟩ := mem_allNodesL.mp hu
      exact h2 s hs u hu2

theorem mem_allNodesL_computeEmbL {u : FolderNode Vec}
    {l : List (FolderNode Vec)} :
    u ∈ allNodesL (computeEmbL l) ↔
      ∃ s ∈ l, u ∈ allNodes (compute_folder_embeddings s) := by
  induction l with
  | nil => simp [computeEmbL, allNodesL]
  | cons s ss ih =>
    rw [show computeEmbL (s :: ss)
        = compute_folder_embeddings s :: computeEmbL ss from rfl]
    rw [show allNodesL (compute_folder_embeddings s :: computeEmbL ss)
        = allNodes (compute_folder_embeddings s) ++ allNodesL (computeEmbL ss) from rfl]
    simp [ih]

theorem compute_eq (p : String) (fs : List (FileNode Vec)) subs e :
    compute_folder_embeddings (.mk p fs subs e)
      = if (fs.filterMap (fun f => f.embedding)
            ++ (computeEmbL subs).filterMap (fun s => s.embedding)).isEmpty
        then .mk p fs (computeEmbL subs) e
        else
          .mk p fs (computeEmbL subs)
            (some (if 0 < l2norm (vecMean (fs.filterMap (fun f => f.embedding)
                ++ (computeEmbL subs).filterMap (fun s => s.embedding)))
              then (vecMean (fs.filterMap (fun f => f.embedding)
                ++ (computeEmbL subs).filterMap (fun s => s.embedding))).map
                  (fun x => x / l2norm (vecMean (fs.filterMap (fun f => f.embedding)
                    ++ (computeEmbL subs).filterMap (fun s => s.embedding))))
              else vecMean (fs.filterMap (fun f => f.embedding)
                ++ (computeEmbL subs).filterMap (fun s => s.embedding)))) := rfl

theorem compute_invariant :
    ∀ t : FolderNode Vec, folderEmbFree t = true →
      ∀ u ∈ allNodes (compute_folder_embeddings t), aggNodeProp u := by
  refine FolderNode.strongInduction ?_
  intro p fs subs e IH hfree u hu
  obtain ⟨he, hsubs⟩ := (folderEmbFree_mk p fs subs e).mp hfree
  subst he
  rw [compute_eq] at hu
  set allEmb := fs.filterMap (fun f => f.embedding)
    ++ (computeEmbL subs).filterMap (fun s => s.embedding) with hallEmb
  by_cases hemp : allEmb.isEmpty
  · rw [if_pos hemp] at hu
    rw [show allNodes (FolderNode.mk p fs (computeEmbL subs) none)
        = FolderNode.mk p fs (computeEmbL subs) none :: allNodesL (computeEmbL subs)
        from rfl] at hu
    rcases List.mem_cons.mp hu with rfl | hu2
    · have hnil : childEmbList (FolderNode.mk p fs (computeEmbL subs) none)
          = allEmb := rfl
      refine ⟨fun _ => rfl, fun hne _ => ?_, fun hne _ => ?_⟩ <;>
        · rw [hnil] at hne
          exact absurd (List.isEmpty_iff.mp hemp) hne
    · obtain ⟨s, hs, hu3⟩ := mem_allNodesL_computeEmbL.mp hu2
      exact IH s hs (hsubs s hs) u hu3
  · rw [if_neg hemp] at hu
    rw [show allNodes (FolderNode.mk p fs (computeEmbL subs)
          (some (if 0 < l2norm (vecMean allEmb)
            then (vecMean allEmb).map (fun x => x / l2norm (vecMean allEmb))
            else vecMean allEmb)))
        = FolderNode.mk p fs (computeEmbL subs)
          (some (if 0 < l2norm (vecMean allEmb)
            then (vecMean allEmb).map (fun x => x / l2norm (vecMean allEmb))
            else vecMean allEmb)) :: allNodesL (computeEmbL subs)
        from rfl] at hu
    rcases List.mem_cons.mp hu with rfl | hu2
    · have hnil : childEmbList (FolderNode.mk p fs (computeEmbL subs)
          (some (if 0 < l2norm (vecMean allEmb)
            then (vecMean allEmb).map (fun x => x / l2norm (vecMean allEmb))
            else vecMean allEmb))) = allEmb := rfl
      refine ⟨fun hn => ?_, fun _ hnz => ?_, fun _ hz => ?_⟩
      · rw [hnil] at hn
        rw [hn] at hemp
        exact absurd rfl hemp
      · rw [hnil] at hnz ⊢
        have hpos : 0 < l2norm (vecMean allEmb) :=
          lt_of_le_of_ne (l2norm_nonneg _) (Ne.symm hnz)
        rw [show (FolderNode.mk p fs (computeEmbL subs)
            (some (if 0 < l2norm (vecMean allEmb)
              then (vecMean allEmb).map (fun x => x / l2norm (vecMean allEmb))
              else vecMean allEmb))).embedding
            = some (if 0 < l2norm (vecMean allEmb)
              then (vecMean allEmb).map (fun x => x / l2norm (vecMean allEmb))
              else vecMean allEmb) from rfl]
        rw [if_pos hpos]
      · rw [hnil] at hz ⊢
        have hnpos : ¬ 0 < l2norm (vecMean allEmb) := by rw [hz]; simp
        rw [show (FolderNode.mk p fs (computeEmbL subs)
            (some (if 0 < l2norm (vecMean allEmb)
              then (vecMean allEmb).map (fun x => x / l2norm (vecMean allEmb))
              else vecMean allEmb))).embedding
            = some (if 0 < l2norm (vecMean allEmb)
              then (vecMean allEmb).map (fun x => x / l2norm (vecMean allEmb))
              else vecMean allEmb) from rfl]
        rw [if_neg hnpos]
        exact ⟨rfl, all_zero_of_l2norm_eq_zero hz⟩
    · obtain ⟨s, hs, hu3⟩ := mem_allNodesL_computeEmbL.mp hu2
      exact IH s hs (hsubs s hs) u hu3

/-- Claim C3: after aggregation of a tree whose folder embeddings start
unset (as `build_tree` produces), every folder node `u` satisfies: if the
list of its direct-file embeddings followed by its direct subfolders'
already-computed embeddings is empty, its embedding is unset (`none`,
not a zero vector); if the list is nonempty and the L2 norm of its
arithmetic mean is nonzero, the stored embedding is that mean divided by
its norm; and if the norm of the mean is zero, the stored embedding is
the unnormalized all-zero mean itself. -/
theorem claim_C3 (t : FolderNode Vec) (h : folderEmbFree t = true) :
    ∀ u ∈ allNodes (compute_folder_embeddings t), aggNodeProp u :=
  compute_invariant t h

/-- Witness for claim C3 at a concrete input. -/
theorem claim_C3_witness : aggNodeProp (compute_folder_embeddings c3w) :=
  claim_C3 c3w (by decide) (compute_folder_embeddings c3w)
    (self_mem_allNodes _)

/-- Counterexample to claim C4: the folder `t4cex` aggregates the child
list `[[1], [-1]]`, which contains a nonzero member, yet the stored
embedding is the zero vector `[0]`, whose L2 norm is `0`, not `1`:
a nonzero descendant embedding does not guarantee a unit-norm folder
embedding, because the mean of nonzero vectors can be zero. -/
theorem claim_C4_counterexample :
    [(1:ℝ)] ∈ childEmbList (compute_folder_embeddings t4cex) ∧
    (∃ x ∈ [(1:ℝ)], x ≠ 0) ∧
    (compute_folder_embeddings t4cex).embedding = some [(0:ℝ)] ∧
    l2norm [(0:ℝ)] ≠ 1 := by
  have hm : vecMean [[(1:ℝ)], [(-1:ℝ)]] = [0] := by
    norm_num [vecMean, vecSum]
  have hnorm : l2norm [(0:ℝ)] = 0 := by
    simp [l2norm]
  refine ⟨?_, ⟨1, by simp, one_ne_zero⟩, ?_, ?_⟩
  · rw [show childEmbList (compute_folder_embeddings t4cex)
        = [[(1:ℝ)], [(-1:ℝ)]] from rfl]
    exact List.mem_cons_self _ _
  · rw [show (compute_folder_embeddings t4cex).embedding
        = some (if 0 < l2norm (vecMean [[(1:ℝ)], [(-1:ℝ)]])
          then (vecMean [[(1:ℝ)], [(-1:ℝ)]]).map
            (fun x => x / l2norm (vecMean [[(1:ℝ)], [(-1:ℝ)]]))
          else vecMean [[(1:ℝ)], [(-1:ℝ)]]) from rfl]
    rw [hm, hnorm]
    simp
  · rw [hnorm]
    norm_num

/-- Claim C4, amended: a folder embedding computed by aggregation has L2
norm exactly 1 whenever the arithmetic mean of the collected child list
has nonzero norm (for a child list merely containing a nonzero member
the mean can still be zero, in which case the stored embedding is the
zero vector). -/
theorem claim_C4_amended (t : FolderNode Vec) (h : folderEmbFree t = true) :
    ∀ u ∈ allNodes (compute_folder_embeddings t), ∀ e,
      u.embedding = some e → l2norm (vecMean (childEmbList u)) ≠ 0 →
      l2norm e = 1 := by
  intro u hu e he hnz
  obtain ⟨h1, h2, -⟩ := compute_invariant t h u hu
  by_cases hc : childEmbList u = []
  · rw [h1 hc] at he
    exact absurd he (by simp)
  · rw [h2 hc hnz] at he
    have he2 : e = (vecMean (childEmbList u)).map
        (fun x => x / l2norm (vecMean (childEmbList u))) := by
      injection he.symm
    rw [he2]
    exact l2norm_normalize hnz

theorem c4w_mean : vecMean [[(1:ℝ)]] = [1] := by
  norm_num [vecMean, vecSum]

theorem c4w_norm_one : l2norm [(1:ℝ)] = 1 := by
  simp [l2norm]

theorem c4w_emb : (compute_folder_embeddings c4w).embedding
    = some ((vecMean [[(1:ℝ)]]).map (fun x => x / l2norm (vecMean [[(1:ℝ)]]))) := by
  rw [show (compute_folder_embeddings c4w).embedding
      = some (if 0 < l2norm (vecMean [[(1:ℝ)]])
        then (vecMean [[(1:ℝ)]]).map (fun x => x / l2norm (vecMean [[(1:ℝ)]]))
        else vecMean [[(1:ℝ)]]) from rfl]
  rw [if_pos (by rw [c4w_mean, c4w_norm_one]; norm_num)]

/-- Witness for the amended claim C4 at a concrete input. -/
theorem claim_C4_amended_witness :
    l2norm ((vecMean [[(1:ℝ)]]).map (fun x => x / l2norm (vecMean [[(1:ℝ)]]))) = 1 :=
  claim_C4_amended c4w (by decide) (compute_folder_embeddings c4w)
    (self_mem_allNodes _) _ c4w_emb
    (by rw [show childEmbList (compute_folder_embeddings c4w) = [[(1:ℝ)]] from rfl,
          c4w_mean, c4w_norm_one]
        norm_num)

/-! ### Claim C10 -/

theorem mem_get_all_foldersL {α} {b : Bool} {u : FolderNode α}
    {l : List (FolderNode α)} :
    u ∈ get_all_foldersL b l ↔ ∃ s ∈ l, u ∈ get_all_folders b s := by
  induction l with
  | nil => simp [get_all_foldersL]
  | cons s ss ih =>
    rw [show get_all_foldersL b (s :: ss)
        = get_all_folders b s ++ get_all_foldersL b ss from rfl]
    simp [ih]

theorem mem_get_all_folders_ne_root {α} :
    ∀ t : FolderNode α, ∀ u ∈ get_all_folders false t, u.path ≠ "" := by
  refine FolderNode.strongInduction ?_
  intro p fs subs e IH u hu
  rw [show get_all_folders false (FolderNode.mk p fs subs e)
      = (if p ≠ "" ∨ false = true then [FolderNode.mk p fs subs e] else [])
        ++ get_all_foldersL false subs from rfl] at hu
  rcases List.mem_append.mp hu with h | h
  · split at h
    · next hcond =>
      rw [List.mem_singleton.mp h]
      rcases hcond with hc | hc
      · exact hc
      · exact absurd hc (by simp)
    · exact absurd h (List.not_mem_nil u)
  · obtain ⟨s, hs, hu2⟩ := mem_get_all_foldersL.mp h
    exact IH s hs u hu2

theorem rank_incoherent_folder_src {root : FolderNode Vec} {minf : ℕ}
    {fa : FolderAnalysis} (h : fa ∈ rank_incoherent_folders root minf) :
    fa.folder ∈ get_all_folders false root := by
  unfold rank_incoherent_folders at h
  rw [List.mem_insertionSort] at h
  obtain ⟨folder, hmem, hsome⟩ := List.mem_filterMap.mp h
  by_cases h1 : folder.files.length < minf
  · rw [if_pos h1] at hsome
    exact absurd hsome (by simp)
  · rw [if_neg h1] at hsome
    by_cases h2 : compute_folder_coherence folder < 0
    · rw [if_pos h2] at hsome
      exact absurd hsome (by simp)
    · rw [if_neg h2] at hsome
      have : fa.folder = folder := by
        have := Option.some_injective _ hsome
        rw [← this]
      rw [this]
      exact hmem

theorem identify_outlier_files_mem {folder : FolderNode Vec} {zt : ℝ}
    {o : FileOutlier} (h : o ∈ identify_outlier_files folder zt) :
    o.folder = folder ∧ o.file ∈ folder.files := by
  unfold identify_outlier_files at h
  rcases hemb : folder.embedding with - | femb
  · rw [hemb] at h
    exact absurd h (List.not_mem_nil o)
  · simp only [hemb] at h
    by_cases h1 : folder.files.isEmpty
    · rw [if_pos h1] at h
      exact absurd h (List.not_mem_nil o)
    · rw [if_neg h1] at h
      set pairs := folder.files.filterMap fun f =>
        f.embedding.map fun e => (f, 1 - cosine_similarity e femb) with hpairs
      by_cases h2 : pairs.length < 2
      · rw [if_pos h2] at h
        exact absurd h (List.not_mem_nil o)
      · rw [if_neg h2] at h
        by_cases h3 : npStd (pairs.map fun fd => fd.2) = 0
        · rw [if_pos h3] at h
          exact absurd h (List.not_mem_nil o)
        · rw [if_neg h3] at h
          rw [List.mem_insertionSort] at h
          obtain ⟨fd, hfd, hsome⟩ := List.mem_filterMap.mp h
          by_cases h4 : zt < (fd.2 - npMean (pairs.map fun fd2 => fd2.2))
              / npStd (pairs.map fun fd2 => fd2.2)
          · rw [if_pos h4] at hsome
            have ho := Option.some_injective _ hsome
            obtain ⟨f, hf, hsome2⟩ := List.mem_filterMap.mp hfd
            rcases hfe : f.embedding with - | fe
            · rw [hfe] at hsome2
              exact absurd hsome2 (by simp)
            · rw [hfe] at hsome2
              have hfd2 : fd = (f, 1 - cosine_similarity fe femb) := by
                have := Option.some_injective _ hsome2
                rw [← this]
              rw [← ho]
              refine ⟨rfl, ?_⟩
              rw [show FileOutlier.file ⟨fd.1, folder, fd.2,
                  (fd.2 - npMean (pairs.map fun fd2 => fd2.2))
                    / npStd (pairs.map fun fd2 => fd2.2)⟩ = fd.1 from rfl]
              rw [hfd2]
              exact hf
          · rw [if_neg h4] at hsome
            exact absurd hsome (by simp)

theorem identify_all_outliers_src {root : FolderNode Vec} {zt : ℝ} {minf : ℕ}
    {o : FileOutlier} (h : o ∈ identify_all_outliers root zt minf) :
    o.folder ∈ get_all_folders false root ∧ o.file ∈ o.folder.files := by
  unfold identify_all_outliers at h
  rw [List.mem_insertionSort] at h
  obtain ⟨folder, hmem, ho⟩ := List.mem_flatMap.mp h
  by_cases h1 : folder.files.length < minf
  · rw [if_pos h1] at ho
    exact absurd ho (List.not_mem_nil o)
  · rw [if_neg h1] at ho
    obtain ⟨hofolder, hofile⟩ := identify_outlier_files_mem ho
    rw [hofolder]
    exact ⟨hmem, hofile⟩

/-- Claim C10: every `FolderAnalysis` produced by
`rank_incoherent_folders` and every `FileOutlier` produced by
`identify_all_outliers` refers to a non-root folder (its path is not the
empty root path), and every flagged outlier file is a direct file of
that non-root folder: because `get_all_folders` omits the node with the
empty path by default, files lying directly at the vault root are never
coherence-ranked and can never be flagged as outliers. -/
theorem claim_C10 (root : FolderNode Vec) (minf : ℕ) (zt : ℝ) :
    ((rank_incoherent_folders root minf).all
      fun fa => !(fa.folder.path == "")) = true ∧
    ((identify_all_outliers root zt minf).all
      fun o => !(o.folder.path == "")
        && o.folder.files.any fun f => f.path == o.file.path) = true := by
  constructor
  · rw [List.all_eq_true]
    intro fa hfa
    have hsrc := rank_incoherent_folder_src hfa
    have := mem_get_all_folders_ne_root root fa.folder hsrc
    simp [this]
  · rw [List.all_eq_true]
    intro o ho
    obtain ⟨hsrc, hfile⟩ := identify_all_outliers_src ho
    have hne := mem_get_all_folders_ne_root root o.folder hsrc
    rw [Bool.and_eq_true]
    refine ⟨by simp [hne], ?_⟩
    rw [List.any_eq_true]
    exact ⟨o.file, hfile, by simp⟩

/-! ### Claim C6 -/

/-- Counterexample to claim C6: quantified over every folder-embedding
map, the claim fails — the exclusion set of `find_similar_folders`
contains only the file's current folder and its ancestors, never the
root path `""`, so for a map that contains the key `""` the root is
offered as a candidate destination for the file `A/B/c.md`. (In the
pipeline the root is absent only because `folder_embeddings_to_dict`
skips it.) -/
theorem claim_C6_counterexample :
    (find_similar_folders c6file c6fe 5 true).map (fun c => c.folder_path)
      = [""] := rfl

theorem excludedPaths_of_nested (file : FileNode Vec)
    (hnest : PPath.str (parsePath file.path).parent ≠ ".") :
    excludedPaths file true
      = PPath.str (parsePath file.path).parent :: get_ancestor_paths file.path := by
  unfold excludedPaths
  rw [if_pos rfl, if_pos hnest]

/-- Claim C6, amended: for a file that does not lie at the top level and
a folder-embedding map none of whose keys is the empty root path — as
produced by `folder_embeddings_to_dict`, which omits the root — the
candidate list of `find_similar_folders` never contains the file's own
current folder, any of its path ancestors, or the root. -/
theorem claim_C6_amended (file : FileNode Vec) (fe : List (String × Vec))
    (k : ℕ) (hkeys : ∀ key ∈ fe.map (fun q => q.1), key ≠ "")
    (hnest : PPath.str (parsePath file.path).parent ≠ ".") :
    ∀ c ∈ find_similar_folders file fe k true,
      c.folder_path ≠ PPath.str (parsePath file.path).parent ∧
      c.folder_path ∉ get_ancestor_paths file.path ∧
      c.folder_path ≠ "" := by
  intro c hc
  unfold find_similar_folders at hc
  rcases hfe : file.embedding with - | femb
  · rw [hfe] at hc
    exact absurd hc (List.not_mem_nil c)
  · simp only [hfe] at hc
    have hc2 := List.mem_of_mem_take hc
    rw [List.mem_insertionSort] at hc2
    obtain ⟨q, hq, rfl⟩ := List.mem_map.mp hc2
    obtain ⟨hq1, hq2⟩ := List.mem_filter.mp hq
    rw [excludedPaths_of_nested file hnest] at hq2
    have hq4 : q.1 ∉ PPath.str (parsePath file.path).parent
        :: get_ancestor_paths file.path := by
      intro hmem
      have hcon : (PPath.str (parsePath file.path).parent
          :: get_ancestor_paths file.path).contains q.1 = true :=
        List.elem_iff.mpr hmem
      rw [hcon] at hq2
      exact absurd hq2 (by simp)
    rw [List.mem_cons] at hq4
    push_neg at hq4
    exact ⟨hq4.1, hq4.2, hkeys q.1 (List.mem_map_of_mem _ hq1)⟩

/-- Witness for the amended claim C6 at a concrete input: the single
candidate returned for the file `A/B/c.md` over the map `{X: [1]}` is
neither the current folder `A/B`, nor an ancestor, nor the root. -/
theorem claim_C6_amended_witness :
    (RelocationCandidate.mk "X" (cosine_similarity [1] [1])).folder_path
        ≠ PPath.str (parsePath "A/B/c.md").parent ∧
    (RelocationCandidate.mk "X" (cosine_similarity [1] [1])).folder_path
        ∉ get_ancestor_paths "A/B/c.md" ∧
    (RelocationCandidate.mk "X" (cosine_similarity [1] [1])).folder_path ≠ "" :=
  claim_C6_amended ⟨"A/B/c.md", some [1]⟩ [("X", [1])] 3
    (by decide) (by decide)
    (RelocationCandidate.mk "X" (cosine_similarity [1] [1]))
    (by rw [show find_similar_folders ⟨"A/B/c.md", some [1]⟩ [("X", [1])] 3 true
          = [RelocationCandidate.mk "X" (cosine_similarity [1] [1])] from rfl]
        exact List.mem_singleton.mpr rfl)

/-! ### Stable sorting lemmas for claim C7 -/

theorem orderedInsert_all_le {α} (r : α → α → Prop) [DecidableRel r]
    {a : α} {s : List α} (h : ∀ b ∈ s, r a b) :
    List.orderedInsert r a s = a :: s := by
  cases s with
  | nil => rfl
  | cons b t =>
    exact List.orderedInsert_of_le r t (h b (List.mem_cons_self b t))

theorem filter_orderedInsert {α} (r : α → α → Prop) [DecidableRel r]
    [IsTrans α r] (p : α → Bool) (a : α) :
    ∀ s : List α, List.Sorted r s →
      (List.orderedInsert r a s).filter p
        = if p a then List.orderedInsert r a (s.filter p) else s.filter p := by
  intro s
  induction s with
  | nil =>
    intro _
    by_cases hpa : p a <;> simp [hpa]
  | cons b t iht =>
    intro hs
    have hst : List.Sorted r t := hs.of_cons
    by_cases hab : r a b
    · rw [List.orderedInsert_of_le r t hab]
      by_cases hpa : p a
      · by_cases hpb : p b
        · rw [if_pos hpa, List.filter_cons_of_pos hpa, List.filter_cons_of_pos hpb,
            List.orderedInsert_of_le r _ hab]
        · rw [if_pos hpa, List.filter_cons_of_pos hpa, List.filter_cons_of_neg hpb,
            orderedInsert_all_le r (fun c hc =>
              Trans.trans hab (List.rel_of_sorted_cons hs c (List.mem_of_mem_filter hc)))]
      · rw [if_neg hpa, List.filter_cons_of_neg hpa]
    · rw [show List.orderedInsert r a (b :: t) = b :: List.orderedInsert r a t from by
        simp [List.orderedInsert, hab]]
      have iht2 := iht hst
      by_cases hpa : p a
      · rw [if_pos hpa]
        by_cases hpb : p b
        · rw [List.filter_cons_of_pos hpb, List.filter_cons_of_pos hpb, iht2, if_pos hpa]
          rw [show List.orderedInsert r a (b :: t.filter p)
              = b :: List.orderedInsert r a (t.filter p) from by
            simp [List.orderedInsert, hab]]
        · rw [List.filter_cons_of_neg hpb, List.filter_cons_of_neg hpb, iht2, if_pos hpa]
      · rw [if_neg hpa]
        by_cases hpb : p b
        · rw [List.filter_cons_of_pos hpb, List.filter_cons_of_pos hpb, iht2, if_neg hpa]
        · rw [List.filter_cons_of_neg hpb, List.filter_cons_of_neg hpb, iht2, if_neg hpa]

theorem filter_insertionSort {α} (r : α → α → Prop) [DecidableRel r]
    [IsTotal α r] [IsTrans α r] (p : α → Bool) (l : List α) :
    (List.insertionSort r l).filter p = List.insertionSort r (l.filter p) := by
  induction l with
  | nil => rfl
  | cons a t ih =>
    rw [show List.insertionSort r (a :: t)
        = List.orderedInsert r a (List.insertionSort r t) from rfl]
    rw [filter_orderedInsert r p a _ (List.sorted_insertionSort r t), ih]
    by_cases hpa : p a
    · rw [if_pos hpa, List.filter_cons_of_pos hpa]
      rfl
    · rw [if_neg hpa, List.filter_cons_of_neg hpa]

theorem sorted_filter_eq_takeWhile {α} {r : α → α → Prop} {p : α → Bool}
    (hcompat : ∀ a b, r a b → p b = true → p a = true) :
    ∀ l : List α, List.Sorted r l → l.filter p = l.takeWhile p := by
  intro l
  induction l with
  | nil => intro _; rfl
  | cons a t ih =>
    intro hs
    by_cases hpa : p a
    · rw [List.filter_cons_of_pos hpa, List.takeWhile_cons_of_pos hpa, ih hs.of_cons]
    · rw [List.filter_cons_of_neg hpa, List.takeWhile_cons_of_neg hpa]
      rw [List.filter_eq_nil_iff.mpr]
      intro b hb hpb
      exact hpa (hcompat a b (List.rel_of_sorted_cons hs b hb) hpb)

theorem takeWhile_take {α} (p : α → Bool) :
    ∀ (l : List α) (n : ℕ), (l.take n).takeWhile p = (l.takeWhile p).take n := by
  intro l
  induction l with
  | nil => intro n; simp
  | cons a t ih =>
    intro n
    cases n with
    | zero => simp
    | succ m =>
      rw [List.take_succ_cons]
      by_cases hpa : p a
      · rw [List.takeWhile_cons_of_pos hpa, List.takeWhile_cons_of_pos hpa,
          List.take_succ_cons, ih]
      · rw [List.takeWhile_cons_of_neg hpa, List.takeWhile_cons_of_neg hpa, List.take_nil]

theorem simGE_compat (θ : ℝ) : ∀ a b : RelocationCandidate, simGE a b →
    (decide (θ ≤ b.similarity)) = true → (decide (θ ≤ a.similarity)) = true := by
  intro a b hab hb
  rw [decide_eq_true_eq] at hb ⊢
  exact le_trans hb hab

theorem implCands_eq_spec (file : FileNode Vec) (fe : List (String × Vec))
    (k : ℕ) (θ : ℝ) :
    ((find_similar_folders file fe (k * 2) true).filter
        (fun c => decide (θ ≤ c.similarity))).take k
      = specNaiveCandidates file fe k θ := by
  unfold find_similar_folders specNaiveCandidates
  rcases hfe : file.embedding with - | femb
  · simp
  · simp only
    set base := (fe.filter fun q =>
      !((excludedPaths file true).contains q.1)).map
        (fun q => RelocationCandidate.mk q.1 (cosine_similarity femb q.2)) with hbase
    set p := fun c : RelocationCandidate => decide (θ ≤ c.similarity) with hp
    have hS : List.Sorted simGE (List.insertionSort simGE base) :=
      List.sorted_insertionSort simGE base
    have hStake : List.Sorted simGE ((List.insertionSort simGE base).take (k * 2)) :=
      List.Pairwise.sublist (List.take_sublist _ _) hS
    rw [sorted_filter_eq_takeWhile (simGE_compat θ) _ hStake]
    rw [takeWhile_take]
    rw [List.take_take]
    rw [show k ⊓ (k * 2) = k from Nat.min_eq_left (by omega)]
    rw [← sorted_filter_eq_takeWhile (simGE_compat θ) _ hS]
    rw [filter_insertionSort]

/-- Claim C7: the candidate list that `generate_suggestions` attaches to
each outlier equals the naive reference computation of the spec — score
every non-excluded folder by cosine similarity, drop candidates below
`min_similarity`, sort the survivors by similarity descending (stably),
truncate to the top `k` — even though the implementation first takes the
top `2 * k` candidates and only then filters by the threshold; and when
nothing survives filtering, the candidate list is empty and the outlier
is simply omitted from the output — the function is total, never an
error. -/
theorem claim_C7 (fe : List (String × Vec)) (k : ℕ) (θ : ℝ)
    (file : FileNode Vec) (outliers : List FileOutlier) :
    ((find_similar_folders file fe (k * 2) true).filter
        (fun c => decide (θ ≤ c.similarity))).take k
      = specNaiveCandidates file fe k θ ∧
    generate_suggestions outliers fe k θ
      = outliers.filterMap (fun o =>
          if (specNaiveCandidates o.file fe k θ).isEmpty then none
          else some ⟨o.file.path, o.folder.path, o.deviation, o.z_score,
            specNaiveCandidates o.file fe k θ⟩) := by
  refine ⟨implCands_eq_spec file fe k θ, ?_⟩
  unfold generate_suggestions
  apply List.filterMap_congr
  intro o _
  dsimp only
  rw [implCands_eq_spec o.file fe k θ]
